import Mathlib

/-
Verification of the identity-resolution and data-cleaning core of the
Eritrocit_ne_vinovat repository (lab-test analytics backend).

The embedding covers:
  * back/analytics/name_of_analysis.py : transliterate_cyrillic_to_latin,
    normalize_column_name, create_test_mapping, and the per-column
    resolution cascade of process_json;
  * back/analytics/back.py : remove_empty_and_duplicates,
    remove_outliers_3sigma;
  * back/app/routers/demo.py : get_test_category, check_value_against_norm,
    is_significantly_abnormal, get_norm_info, normalize_test_code,
    normalize_test_name, group_by_category, get_abnormal_tests.

Modelling conventions:
  * Python strings are Lean String values processed on their List Char
    contents; Python dicts appear as association lists with first-position
    update semantics (insertion appends, assignment to an existing key
    updates in place), matching CPython dict ordering;
  * numeric measurement values (Python floats that parse, are finite and
    not NaN) are modelled as exact rationals; a value of Option form none
    stands for an entry whose value fails float() parsing (or is NaN/inf);
  * the rapidfuzz similarity metrics are not part of the repository source,
    so they are modelled from the spec (see the defs marked accordingly)
    and the resolver definitions take the metric family as parameters.
-/

/-! ### Character and string primitives (ASCII scope of Python str methods) -/

/-- Lower-casing of one character: Python str.lower restricted to the Latin
A-Z range; every other character is left unchanged. -/
def lowChar (c : Char) : Char :=
  if 'A' ≤ c ∧ c ≤ 'Z' then Char.ofNat (c.toNat + 32) else c

/-- Upper-casing of one character: Python str.upper restricted to a-z. -/
def upChar (c : Char) : Char :=
  if 'a' ≤ c ∧ c ≤ 'z' then Char.ofNat (c.toNat - 32) else c

/-- Python s.lower() over a whole string. -/
def lowerStr (s : String) : String := ⟨s.data.map lowChar⟩

/-- Python s.upper() over a whole string. -/
def upperStr (s : String) : String := ⟨s.data.map upChar⟩

/-- Whitespace test used by Python str.strip (ASCII whitespace). -/
def isWs (c : Char) : Bool := c = ' ' || c = '\t' || c = '\n' || c = '\r'

/-- Python s.strip(): drop leading and trailing whitespace. -/
def stripChars (l : List Char) : List Char :=
  ((l.dropWhile isWs).reverse.dropWhile isWs).reverse

/-- Python s.strip() on strings. -/
def stripWs (s : String) : String := ⟨stripChars s.data⟩

/-- Does the second list start with the first one? -/
def leadsWith : List Char → List Char → Bool
  | [], _ => true
  | _ :: _, [] => false
  | a :: as, b :: bs => a = b && leadsWith as bs

/-- Does needle occur as a contiguous segment of the list? (Python
substring containment; an empty needle is always contained). -/
def containsSeg (needle : List Char) : List Char → Bool
  | [] => leadsWith needle []
  | c :: t => leadsWith needle (c :: t) || containsSeg needle t

/-- Python needle in hay, for strings. -/
def strContains (hay needle : String) : Bool := containsSeg needle.data hay.data

/-- Python hay.startswith(p). -/
def strStarts (s p : String) : Bool := leadsWith p.data s.data

/-- Replace every non-overlapping occurrence of the pattern p0 :: ps by
rep, scanning left to right (Python str.replace with a non-empty
pattern). The extra fuel argument, initialized to the list length, makes
the recursion structural (each step consumes at least one character, so
the fuel never runs out on the real calls). -/
def replaceSeg (p0 : Char) (ps rep : List Char) : Nat → List Char → List Char
  | 0, l => l
  | _, [] => []
  | fuel + 1, c :: t =>
    if leadsWith (p0 :: ps) (c :: t) then
      rep ++ replaceSeg p0 ps rep fuel (t.drop ps.length)
    else c :: replaceSeg p0 ps rep fuel t

/-- Python s.replace(pat, rep); every use in the sources has a non-empty
pattern, and an empty pattern is mapped to the identity. -/
def replaceAll (s pat rep : String) : String :=
  match pat.data with
  | [] => s
  | p0 :: ps => ⟨replaceSeg p0 ps rep.data s.data.length s.data⟩

/-- Lexicographic (code-point) comparison of character lists: the order
Python uses for its string < operator. -/
def lexLt : List Char → List Char → Bool
  | _, [] => false
  | [], _ :: _ => true
  | a :: as, b :: bs => if a < b then true else if a = b then lexLt as bs else false

/-- Python a < b on strings (code-point lexicographic order). -/
def sLt (a b : String) : Bool := lexLt a.data b.data

theorem lexLt_irrefl (l : List Char) : lexLt l l = false := by
  induction l with
  | nil => rfl
  | cons a as ih => simp [lexLt, ih]

theorem lexLt_trans : ∀ {a b c : List Char},
    lexLt a b = true → lexLt b c = true → lexLt a c = true := by
  intro a
  induction a with
  | nil =>
    intro b c h1 h2
    cases b with
    | nil => simp [lexLt] at h1
    | cons y ys =>
      cases c with
      | nil => simp [lexLt] at h2
      | cons z zs => rfl
  | cons x xs ih =>
    intro b c h1 h2
    cases b with
    | nil => simp [lexLt] at h1
    | cons y ys =>
      cases c with
      | nil => simp [lexLt] at h2
      | cons z zs =>
        simp only [lexLt] at h1 h2 ⊢
        by_cases hxy : x < y
        · by_cases hyz : y < z
          · rw [if_pos (lt_trans hxy hyz)]
          · rw [if_neg hyz] at h2
            by_cases hyz' : y = z
            · subst hyz'; rw [if_pos hxy]
            · simp [hyz'] at h2
        · rw [if_neg hxy] at h1
          by_cases hxy' : x = y
          · subst hxy'
            rw [if_pos rfl] at h1
            by_cases hxz : x < z
            · rw [if_pos hxz]
            · rw [if_neg hxz]
              rw [if_neg hxz] at h2
              by_cases hxz' : x = z
              · subst hxz'
                rw [if_pos rfl] at h2 ⊢
                exact ih h1 h2
              · simp [hxz'] at h2
          · simp [hxy'] at h1

theorem lexLt_conn : ∀ {a b : List Char},
    lexLt a b = false → lexLt b a = false → a = b := by
  intro a
  induction a with
  | nil =>
    intro b h1 _
    cases b with
    | nil => rfl
    | cons y ys => simp [lexLt] at h1
  | cons x xs ih =>
    intro b h1 h2
    cases b with
    | nil => simp [lexLt] at h2
    | cons y ys =>
      simp only [lexLt] at h1 h2
      by_cases hxy : x < y
      · simp [hxy] at h1
      · by_cases hyx : y < x
        · simp [hyx] at h2
        · have hxy' : x = y := le_antisymm (not_lt.mp hyx) (not_lt.mp hxy)
          subst hxy'
          rw [if_neg hxy, if_pos rfl] at h1
          rw [if_neg hxy, if_pos rfl] at h2
          rw [ih h1 h2]

theorem sLt_le_trans {a b c : String} (h1 : sLt b a = false) (h2 : sLt c b = false) :
    sLt c a = false := by
  by_contra h
  have h3 : lexLt c.data a.data = true := by
    revert h; unfold sLt; cases lexLt c.data a.data <;> simp
  by_cases hbc : lexLt b.data c.data = true
  · exact absurd (lexLt_trans hbc h3) (by simpa [sLt] using h1)
  · have hbc' : lexLt b.data c.data = false := by
      revert hbc; cases lexLt b.data c.data <;> simp
    have hcb : lexLt c.data b.data = false := by simpa [sLt] using h2
    have : c.data = b.data := lexLt_conn hcb hbc'
    rw [this] at h3
    exact absurd h3 (by simpa [sLt] using h1)

/-! ### The Normalizer: transliterate_cyrillic_to_latin and
normalize_column_name from back/analytics/name_of_analysis.py -/

/-- Fixed transliteration table of transliterate_cyrillic_to_latin,
copied entry by entry from the source dict (digraphs as two/three
character sequences, hard and soft signs map to nothing). -/
def cyrTable : List (Char × List Char) := [
  ('а', ['a']), ('б', ['b']), ('в', ['v']), ('г', ['g']), ('д', ['d']),
  ('е', ['e']), ('ё', ['y', 'o']), ('ж', ['z', 'h']), ('з', ['z']), ('и', ['i']),
  ('й', ['y']), ('к', ['k']), ('л', ['l']), ('м', ['m']), ('н', ['n']),
  ('о', ['o']), ('п', ['p']), ('р', ['r']), ('с', ['s']), ('т', ['t']),
  ('у', ['u']), ('ф', ['f']), ('х', ['h']), ('ц', ['t', 's']), ('ч', ['c', 'h']),
  ('ш', ['s', 'h']), ('щ', ['s', 'c', 'h']), ('ъ', []), ('ы', ['y']), ('ь', []),
  ('э', ['e']), ('ю', ['y', 'u']), ('я', ['y', 'a']),
  ('А', ['A']), ('Б', ['B']), ('В', ['V']), ('Г', ['G']), ('Д', ['D']),
  ('Е', ['E']), ('Ё', ['Y', 'o']), ('Ж', ['Z', 'h']), ('З', ['Z']), ('И', ['I']),
  ('Й', ['Y']), ('К', ['K']), ('Л', ['L']), ('М', ['M']), ('Н', ['N']),
  ('О', ['O']), ('П', ['P']), ('Р', ['R']), ('С', ['S']), ('Т', ['T']),
  ('У', ['U']), ('Ф', ['F']), ('Х', ['H']), ('Ц', ['T', 's']), ('Ч', ['C', 'h']),
  ('Ш', ['S', 'h']), ('Щ', ['S', 'c', 'h']), ('Ъ', []), ('Ы', ['Y']), ('Ь', []),
  ('Э', ['E']), ('Ю', ['Y', 'u']), ('Я', ['Y', 'a'])]

/-- One character of transliterate_cyrillic_to_latin: table characters are
replaced by their Latin expansion, everything else is kept. -/
def translitChar (c : Char) : List Char :=
  match cyrTable.find? (fun p => p.1 = c) with
  | some p => p.2
  | none => [c]

/-- transliterate_cyrillic_to_latin over a character list (the source
builds the result by concatenating the per-character images). -/
def transliterate_cyrillic_to_latin : List Char → List Char
  | [] => []
  | c :: t => translitChar c ++ transliterate_cyrillic_to_latin t

/-- One replacement stage of normalize_column_name: map character a to
an underscore, keep the rest (Python replace with single characters). -/
def replCh (a : Char) (l : List Char) : List Char :=
  l.map (fun c => if c = a then '_' else c)

/-- Characters surviving the re.sub(r'[^a-z_]', '') stage. -/
def goodChar (c : Char) : Bool := ('a' ≤ c && c ≤ 'z') || c = '_'

/-- The re.sub(r'[^a-z_]', '') stage of normalize_column_name. -/
def keepAZ (l : List Char) : List Char := l.filter goodChar

/-- The re.sub(r'\d+', '') stage (removing digits; after keepAZ this is
vacuous, but it is kept to mirror the source). -/
def dropDigits (l : List Char) : List Char := l.filter (fun c => !c.isDigit)

/-- The re.sub(r'_+', '_') stage: collapse runs of underscores. -/
def collapseU : List Char → List Char
  | [] => []
  | c :: rest =>
    if c = '_' ∧ (collapseU rest).head? = some '_' then collapseU rest
    else c :: collapseU rest

/-- Underscore test for the final strip('_') stage. -/
def isU (c : Char) : Bool := c = '_'

/-- The strip('_') stage: drop leading and trailing underscores. -/
def stripU (l : List Char) : List Char :=
  ((l.dropWhile isU).reverse.dropWhile isU).reverse

/-- The full normalize_column_name pipeline on character lists, stage for
stage in source order: transliteration, lower-casing, replacing each of
'.', ' ' and '-' by an underscore, dropping characters outside [a-z_],
dropping digits, collapsing underscore runs, stripping outer
underscores. -/
def normChars (l : List Char) : List Char :=
  stripU (collapseU (dropDigits (keepAZ
    (replCh '-' (replCh ' ' (replCh '.' ((transliterate_cyrillic_to_latin l).map lowChar)))))))

/-- normalize_column_name from name_of_analysis.py. Non-string inputs are
str()-converted by the source before this pipeline, so the embedding is
over strings. -/
def normalize_column_name (s : String) : String := ⟨normChars s.data⟩

/-! ### Stage facts for the normalizer -/

theorem translitChar_of_lt (c : Char) (h : c.toNat < 1024) : translitChar c = [c] := by
  unfold translitChar
  have hfind : cyrTable.find? (fun p => p.1 = c) = none := by
    rw [List.find?_eq_none]
    intro x hx
    have h2 : ∀ q ∈ cyrTable, 1024 < q.1.toNat := by decide
    have h3 := h2 x hx
    simp only [decide_eq_true_eq]
    intro hc
    rw [hc] at h3
    omega
  rw [hfind]

theorem goodChar_iff (c : Char) :
    goodChar c = true ↔ (('a' ≤ c ∧ c ≤ 'z') ∨ c = '_') := by
  simp [goodChar, and_comm]

theorem goodChar_props (c : Char) (h : goodChar c = true) :
    c.toNat < 1024 ∧ lowChar c = c ∧ c ≠ '.' ∧ c ≠ ' ' ∧ c ≠ '-' ∧ c.isDigit = false := by
  rcases (goodChar_iff c).mp h with ⟨h1, h2⟩ | h1
  · have n1 : 97 ≤ c.toNat := h1
    have n2 : c.toNat ≤ 122 := h2
    refine ⟨by omega, ?_, ?_, ?_, ?_, ?_⟩
    · unfold lowChar
      rw [if_neg]
      rintro ⟨_, u2⟩
      have : c.toNat ≤ 90 := u2
      omega
    · intro hc; rw [hc] at n1; exact absurd n1 (by decide)
    · intro hc; rw [hc] at n1; exact absurd n1 (by decide)
    · intro hc; rw [hc] at n1; exact absurd n1 (by decide)
    · unfold Char.isDigit
      have hle : ¬ (c.val ≤ 57) := by
        intro hle
        have : c.toNat ≤ 57 := hle
        omega
      simp [hle]
  · subst h1; refine ⟨by decide, by decide, by decide, by decide, by decide, by decide⟩

theorem transliterate_fix {l : List Char} (h : ∀ c ∈ l, c.toNat < 1024) :
    transliterate_cyrillic_to_latin l = l := by
  induction l with
  | nil => rfl
  | cons c t ih =>
    rw [transliterate_cyrillic_to_latin, translitChar_of_lt c (h c (by simp)),
      ih (fun x hx => h x (by simp [hx]))]
    rfl

theorem map_lowChar_fix {l : List Char} (h : ∀ c ∈ l, lowChar c = c) :
    l.map lowChar = l :=
  (List.map_congr_left h).trans (List.map_id l)

theorem replCh_fix {a : Char} {l : List Char} (h : ∀ c ∈ l, c ≠ a) :
    replCh a l = l := by
  unfold replCh
  refine (List.map_congr_left ?_).trans (List.map_id l)
  intro c hc
  exact if_neg (h c hc)

theorem keepAZ_fix {l : List Char} (h : ∀ c ∈ l, goodChar c = true) :
    keepAZ l = l :=
  List.filter_eq_self.mpr h

theorem dropDigits_fix {l : List Char} (h : ∀ c ∈ l, c.isDigit = false) :
    dropDigits l = l := by
  refine List.filter_eq_self.mpr ?_
  intro c hc
  simp [h c hc]

theorem mem_collapseU {c : Char} : ∀ {l : List Char}, c ∈ collapseU l → c ∈ l := by
  intro l
  induction l with
  | nil => simp [collapseU]
  | cons a t ih =>
    rw [collapseU]
    split
    · intro h; exact List.mem_cons_of_mem a (ih h)
    · intro h
      rcases List.mem_cons.mp h with h | h
      · exact h ▸ List.mem_cons_self a t
      · exact List.mem_cons_of_mem a (ih h)

theorem mem_stripU {c : Char} {l : List Char} (h : c ∈ stripU l) : c ∈ l := by
  unfold stripU at h
  rw [List.mem_reverse] at h
  have h2 := (List.dropWhile_suffix isU).subset h
  rw [List.mem_reverse] at h2
  exact (List.dropWhile_suffix isU).subset h2

theorem normChars_good {l : List Char} : ∀ c ∈ normChars l, goodChar c = true := by
  intro c hc
  unfold normChars at hc
  have h1 := mem_collapseU (mem_stripU hc)
  have h2 := List.mem_of_mem_filter h1
  exact (List.mem_filter.mp h2).2

/-- Adjacent-underscore freedom: the relation that collapse establishes. -/
def noUU (a b : Char) : Prop := ¬(a = '_' ∧ b = '_')

theorem chain'_collapseU (l : List Char) : List.Chain' noUU (collapseU l) := by
  induction l with
  | nil => simp [collapseU]
  | cons a t ih =>
    rw [collapseU]
    split
    · exact ih
    · rename_i hcond
      refine List.chain'_cons'.mpr ⟨?_, ih⟩
      intro y hy
      intro ⟨ha, hy'⟩
      exact hcond ⟨ha, by rwa [hy'] at hy⟩

theorem collapseU_of_chain' : ∀ {l : List Char}, List.Chain' noUU l → collapseU l = l := by
  intro l
  induction l with
  | nil => intro _; rfl
  | cons a t ih =>
    intro h
    obtain ⟨hhead, htail⟩ := List.chain'_cons'.mp h
    rw [collapseU, ih htail, if_neg]
    rintro ⟨ha, hh⟩
    exact hhead '_' hh ⟨ha, rfl⟩

theorem chain'_stripU {l : List Char} (h : List.Chain' noUU l) :
    List.Chain' noUU (stripU l) := by
  unfold stripU
  have flipNoUU : ∀ a b, noUU a b → flip noUU a b := by
    intro a b hab ⟨x, y⟩; exact hab ⟨y, x⟩
  have s1 : List.Chain' noUU (l.dropWhile isU) := h.suffix (List.dropWhile_suffix _)
  have s2 : List.Chain' noUU (l.dropWhile isU).reverse :=
    List.chain'_reverse.mpr (s1.imp flipNoUU)
  have s3 : List.Chain' noUU ((l.dropWhile isU).reverse.dropWhile isU) :=
    s2.suffix (List.dropWhile_suffix _)
  exact List.chain'_reverse.mpr (s3.imp flipNoUU)

theorem head?_dropWhile {α : Type} {p : α → Bool} :
    ∀ {l : List α} {c : α}, (l.dropWhile p).head? = some c → p c = false := by
  intro l
  induction l with
  | nil => intro c h; simp [List.dropWhile] at h
  | cons a t ih =>
    intro c h
    rw [List.dropWhile_cons] at h
    by_cases hp : p a
    · rw [if_pos hp] at h; exact ih h
    · rw [if_neg hp] at h
      simp only [List.head?_cons, Option.some.injEq] at h
      subst h
      exact Bool.eq_false_iff.mpr hp

theorem dropWhile_of_head {α : Type} {p : α → Bool} :
    ∀ {l : List α}, (∀ c, l.head? = some c → p c = false) → l.dropWhile p = l := by
  intro l h
  cases l with
  | nil => rfl
  | cons a t =>
    rw [List.dropWhile_cons, if_neg]
    simp [h a rfl]

theorem stripU_props (l : List Char) :
    (∀ c, (stripU l).head? = some c → isU c = false) ∧
    (∀ c, (stripU l).getLast? = some c → isU c = false) := by
  unfold stripU
  constructor
  · intro c hc
    rw [List.head?_reverse] at hc
    obtain ⟨t, ht⟩ := List.dropWhile_suffix (l := (l.dropWhile isU).reverse) isU
    have hne : (l.dropWhile isU).reverse.dropWhile isU ≠ [] := by
      intro h0; rw [h0] at hc; simp at hc
    have e1 := List.getLast?_append_of_ne_nil t hne
    rw [ht, List.getLast?_reverse] at e1
    exact head?_dropWhile (e1.trans hc)
  · intro c hc
    rw [List.getLast?_reverse] at hc
    exact head?_dropWhile hc

theorem stripU_idem (l : List Char) : stripU (stripU l) = stripU l := by
  obtain ⟨hh, hl⟩ := stripU_props l
  conv_lhs => rw [stripU]
  rw [dropWhile_of_head hh, dropWhile_of_head (fun c hc => hl c (by rwa [List.head?_reverse] at hc)),
    List.reverse_reverse]

theorem normChars_fix {m : List Char} (hg : ∀ c ∈ m, goodChar c = true)
    (hc : List.Chain' noUU m) (hs : stripU m = m) : normChars m = m := by
  unfold normChars
  rw [transliterate_fix (fun c h => (goodChar_props c (hg c h)).1),
    map_lowChar_fix (fun c h => (goodChar_props c (hg c h)).2.1),
    replCh_fix (fun c h => (goodChar_props c (hg c h)).2.2.1),
    replCh_fix (fun c h => (goodChar_props c (hg c h)).2.2.2.1),
    replCh_fix (fun c h => (goodChar_props c (hg c h)).2.2.2.2.1),
    keepAZ_fix hg,
    dropDigits_fix (fun c h => (goodChar_props c (hg c h)).2.2.2.2.2),
    collapseU_of_chain' hc, hs]

theorem normChars_idem (l : List Char) : normChars (normChars l) = normChars l := by
  refine normChars_fix normChars_good ?_ ?_
  · unfold normChars
    exact chain'_stripU (chain'_collapseU _)
  · unfold normChars
    exact stripU_idem _

/-! ### Claim C3 -/

/-- C3: normalize_column_name is total (every string input yields a token;
non-string inputs are str()-converted by the source before reaching the
pipeline), idempotent, and its output consists only of lowercase Latin
letters and underscores, so digits and all other characters never
survive. -/
theorem c3_normalize_idempotent_charset (s : String) :
    normalize_column_name (normalize_column_name s) = normalize_column_name s ∧
    ∀ c ∈ (normalize_column_name s).data, ('a' ≤ c ∧ c ≤ 'z') ∨ c = '_' := by
  constructor
  · show String.mk (normChars (String.mk (normChars s.data)).data) = String.mk (normChars s.data)
    exact congrArg String.mk (normChars_idem s.data)
  · intro c hc
    exact (goodChar_iff c).mp (normChars_good c hc)

/-! ### Claim C9 -/

theorem letter_facts (c : Char) (h : 'a' ≤ c ∧ c ≤ 'z') :
    translitChar c = [c] ∧ lowChar c = c ∧ goodChar c = true ∧ c ≠ '_' := by
  have hg : goodChar c = true := (goodChar_iff c).mpr (Or.inl h)
  have n1 : 97 ≤ c.toNat := h.1
  refine ⟨translitChar_of_lt c (goodChar_props c hg).1, (goodChar_props c hg).2.1, hg, ?_⟩
  intro hc; rw [hc] at n1; exact absurd n1 (by decide)

/-- C9 counterexample: a tab between letters does not become an underscore.
normalize_column_name "a\tb" evaluates to "ab", not to "a_b": the source
replaces only '.', ' ' (the literal space) and '-' by underscores, so every
other whitespace character is silently dropped by the [^a-z_] filter and
the surrounding letters are fused. -/
theorem c9_counterexample_tab :
    normalize_column_name "a\tb" = "ab" ∧ normalize_column_name "a\tb" ≠ "a_b" := by
  constructor
  · decide
  · decide

/-- C9 amended: normalize_column_name turns each of '.', the literal space
' ' and '-' between letters into an underscore separator, while any other
whitespace character (tab, newline) is dropped without leaving a
separator. -/
theorem c9_amended_separators (a b : Char) (ha : 'a' ≤ a ∧ a ≤ 'z')
    (hb : 'a' ≤ b ∧ b ≤ 'z') :
    normalize_column_name ⟨[a, '.', b]⟩ = ⟨[a, '_', b]⟩ ∧
    normalize_column_name ⟨[a, ' ', b]⟩ = ⟨[a, '_', b]⟩ ∧
    normalize_column_name ⟨[a, '-', b]⟩ = ⟨[a, '_', b]⟩ ∧
    normalize_column_name ⟨[a, '\t', b]⟩ = ⟨[a, b]⟩ ∧
    normalize_column_name ⟨[a, '\n', b]⟩ = ⟨[a, b]⟩ := by
  obtain ⟨ta, la, ga, ua⟩ := letter_facts a ha
  obtain ⟨tb, lb, gb, ub⟩ := letter_facts b hb
  have na := goodChar_props a ga
  have nb := goodChar_props b gb
  refine ⟨?_, ?_, ?_, ?_, ?_⟩ <;>
  · show String.mk (normChars _) = String.mk _
    refine congrArg String.mk ?_
    simp [normChars, transliterate_cyrillic_to_latin, ta, tb,
      translitChar_of_lt '.' (by decide), translitChar_of_lt ' ' (by decide),
      translitChar_of_lt '-' (by decide), translitChar_of_lt '\t' (by decide),
      translitChar_of_lt '\n' (by decide),
      la, lb, (by decide : lowChar '.' = '.'), (by decide : lowChar ' ' = ' '),
      (by decide : lowChar '-' = '-'), (by decide : lowChar '\t' = '\t'),
      (by decide : lowChar '\n' = '\n'),
      replCh, na.2.2.1, na.2.2.2.1, na.2.2.2.2.1, nb.2.2.1, nb.2.2.2.1, nb.2.2.2.2.1,
      (by decide : ('_' : Char) ≠ ' '), (by decide : ('_' : Char) ≠ '-'),
      (by decide : ('.' : Char) ≠ ' '), (by decide : ('.' : Char) ≠ '-'),
      (by decide : (' ' : Char) ≠ '.'), (by decide : ('-' : Char) ≠ '.'),
      (by decide : ('-' : Char) ≠ ' '), (by decide : ('\t' : Char) ≠ '.'),
      (by decide : ('\t' : Char) ≠ ' '), (by decide : ('\t' : Char) ≠ '-'),
      (by decide : ('\n' : Char) ≠ '.'), (by decide : ('\n' : Char) ≠ ' '),
      (by decide : ('\n' : Char) ≠ '-'),
      keepAZ, dropDigits, List.filter, ga, gb, (by decide : goodChar '_' = true),
      (by decide : goodChar '\t' = false), (by decide : goodChar '\n' = false),
      na.2.2.2.2.2, nb.2.2.2.2.2, (by decide : Char.isDigit '_' = false),
      collapseU, ua, ub, (by decide : ('_' : Char) = '_'),
      stripU, List.dropWhile, isU]

/-- Witness for c9_amended_separators at the concrete letters a and b. -/
theorem c9_amended_separators_witness :
    normalize_column_name ⟨['a', '.', 'b']⟩ = ⟨['a', '_', 'b']⟩ ∧
    normalize_column_name ⟨['a', ' ', 'b']⟩ = ⟨['a', '_', 'b']⟩ ∧
    normalize_column_name ⟨['a', '-', 'b']⟩ = ⟨['a', '_', 'b']⟩ ∧
    normalize_column_name ⟨['a', '\t', 'b']⟩ = ⟨['a', 'b']⟩ ∧
    normalize_column_name ⟨['a', '\n', 'b']⟩ = ⟨['a', 'b']⟩ :=
  c9_amended_separators 'a' 'b' (by decide) (by decide)

/-! ### Similarity Scorer

The source scores similarity with rapidfuzz (fuzz.ratio,
fuzz.partial_ratio, fuzz.token_sort_ratio, fuzz.token_set_ratio), a
third-party library whose code is not part of this repository. The four
metrics are therefore modelled from the spec (section 4.2: whole-string
edit-distance ratio, best-matching-contiguous-substring ratio,
token-order-insensitive ratio, each valued in [0,1] after the /100
scaling the source applies), and every resolver definition below takes
the metric family as explicit function parameters. -/

/-- Modelled from the spec: longest-common-subsequence length, the basis
of the normalized indel (edit-distance) ratio. -/
def lcsLen : List Char → List Char → Nat
  | [], _ => 0
  | _ :: _, [] => 0
  | a :: as, b :: bs =>
    if a = b then lcsLen as bs + 1
    else max (lcsLen (a :: as) bs) (lcsLen as (b :: bs))
termination_by a b => a.length + b.length
decreasing_by all_goals (simp only [List.length_cons]; omega)

/-- Modelled from the spec: normalized indel similarity of two character
lists, scaled to [0,1]; two empty strings count as fully similar. -/
def ratioL (x y : List Char) : ℚ :=
  if x.length + y.length = 0 then 1
  else (2 * lcsLen x y : ℚ) / ((x.length : ℚ) + y.length)

/-- Modelled from the spec: the whole-string edit-distance ratio metric. -/
def fuzzRatio (a b : String) : ℚ := ratioL a.data b.data

/-- All contiguous segments of a list. -/
def allSegs (l : List Char) : List (List Char) := l.tails.flatMap List.inits

/-- Modelled from the spec: partial/substring ratio — the best ratio
between the shorter string and a contiguous segment of the longer one. -/
def fuzzSubstr (a b : String) : ℚ :=
  let s := if a.data.length ≤ b.data.length then a.data else b.data
  let t := if a.data.length ≤ b.data.length then b.data else a.data
  (allSegs t).foldl (fun acc w => max acc (ratioL s w)) 0

/-- Python str.split(): whitespace-separated tokens, empties dropped. -/
def splitTokAux : List Char → List Char → List (List Char)
  | [], acc => if acc = [] then [] else [acc.reverse]
  | c :: t, acc =>
    if isWs c then (if acc = [] then splitTokAux t [] else acc.reverse :: splitTokAux t [])
    else splitTokAux t (c :: acc)

/-- Tokenization for the token-based metrics. -/
def splitTok (l : List Char) : List (List Char) := splitTokAux l []

/-- Insertion into a lexicographically sorted token list. -/
def insertTok (x : List Char) : List (List Char) → List (List Char)
  | [] => [x]
  | y :: ys => if lexLt y x then y :: insertTok x ys else x :: y :: ys

/-- Sort a token list lexicographically. -/
def sortToks (l : List (List Char)) : List (List Char) := l.foldr insertTok []

/-- Join tokens with single spaces. -/
def joinSp : List (List Char) → List Char
  | [] => []
  | [x] => x
  | x :: y :: t => x ++ ' ' :: joinSp (y :: t)

/-- Modelled from the spec: token-order-insensitive ratio (sort the
whitespace tokens, rejoin, compare). -/
def fuzzTokenSort (a b : String) : ℚ :=
  ratioL (joinSp (sortToks (splitTok a.data))) (joinSp (sortToks (splitTok b.data)))

/-- Modelled from the spec: token-set ratio (intersection/difference token
multigroups compared pairwise; used only by stage 5 of the resolver
cascade in process_json). -/
def fuzzTokenSet (a b : String) : ℚ :=
  let wa := (splitTok a.data).dedup
  let wb := (splitTok b.data).dedup
  let both := sortToks (wa.filter (fun w => w ∈ wb))
  let da := sortToks (wa.filter (fun w => ¬ w ∈ wb))
  let db := sortToks (wb.filter (fun w => ¬ w ∈ wa))
  let s0 := joinSp both
  let s1 := joinSp (both ++ da)
  let s2 := joinSp (both ++ db)
  max (max (ratioL s0 s1) (ratioL s0 s2)) (ratioL s1 s2)

theorem lcsLen_self : ∀ l : List Char, lcsLen l l = l.length := by
  intro l
  induction l with
  | nil => simp [lcsLen]
  | cons a t ih => rw [lcsLen, if_pos rfl, ih]; rfl

theorem ratioL_self (l : List Char) : ratioL l l = 1 := by
  unfold ratioL
  cases l with
  | nil => simp
  | cons a t =>
    rw [if_neg (by simp)]
    rw [lcsLen_self]
    have hpos : (0 : ℚ) < (a :: t).length := by
      exact_mod_cast List.length_pos.mpr (by simp)
    rw [div_eq_one_iff_eq (by linarith)]
    ring

theorem lcsLen_le_left : ∀ x y : List Char, lcsLen x y ≤ x.length := by
  intro x y
  induction x, y using lcsLen.induct with
  | case1 y => simp [lcsLen]
  | case2 a as => simp [lcsLen]
  | case3 as b bs ih =>
    rw [lcsLen, if_pos rfl]
    simpa using ih
  | case4 a as b bs hne ih1 ih2 =>
    rw [lcsLen, if_neg hne]
    refine max_le ih1 ?_
    simp only [List.length_cons] at ih2 ⊢
    omega

theorem lcsLen_le_right : ∀ x y : List Char, lcsLen x y ≤ y.length := by
  intro x y
  induction x, y using lcsLen.induct with
  | case1 y => simp [lcsLen]
  | case2 a as => simp [lcsLen]
  | case3 as b bs ih =>
    rw [lcsLen, if_pos rfl]
    simpa using ih
  | case4 a as b bs hne ih1 ih2 =>
    rw [lcsLen, if_neg hne]
    refine max_le ?_ ih2
    simp only [List.length_cons] at ih1 ⊢
    omega

theorem ratioL_le_one (x y : List Char) : ratioL x y ≤ 1 := by
  unfold ratioL
  split
  · exact le_refl 1
  · rename_i hne
    have hpos : 0 < x.length + y.length := Nat.pos_of_ne_zero hne
    have hq : (0 : ℚ) < (x.length : ℚ) + y.length := by exact_mod_cast hpos
    rw [div_le_one hq]
    have h1 := lcsLen_le_left x y
    have h2 := lcsLen_le_right x y
    have : 2 * lcsLen x y ≤ x.length + y.length := by omega
    exact_mod_cast this

theorem foldl_max_le_one {f : List Char → ℚ} :
    ∀ (l : List (List Char)) (acc : ℚ), acc ≤ 1 → (∀ w ∈ l, f w ≤ 1) →
      l.foldl (fun a w => max a (f w)) acc ≤ 1 := by
  intro l
  induction l with
  | nil => intro acc h _; simpa using h
  | cons x t ih =>
    intro acc hacc hall
    simp only [List.foldl_cons]
    exact ih _ (max_le hacc (hall x (by simp))) (fun w hw => hall w (by simp [hw]))

theorem foldl_max_ge_acc {f : List Char → ℚ} :
    ∀ (l : List (List Char)) (acc : ℚ), acc ≤ l.foldl (fun a w => max a (f w)) acc := by
  intro l
  induction l with
  | nil => intro acc; simp
  | cons x t ih =>
    intro acc
    simp only [List.foldl_cons]
    exact le_trans (le_max_left _ _) (ih _)

theorem foldl_max_ge_mem {f : List Char → ℚ} :
    ∀ (l : List (List Char)) (acc : ℚ) (w : List Char), w ∈ l →
      f w ≤ l.foldl (fun a x => max a (f x)) acc := by
  intro l
  induction l with
  | nil => intro acc w hw; simp at hw
  | cons x t ih =>
    intro acc w hw
    simp only [List.foldl_cons]
    rcases List.mem_cons.mp hw with rfl | hw
    · exact le_trans (le_max_right _ _) (foldl_max_ge_acc t _)
    · exact ih _ w hw

theorem mem_allSegs_self (l : List Char) : l ∈ allSegs l :=
  List.mem_flatMap.mpr ⟨l, (List.mem_tails _ _).mpr (List.suffix_refl l),
    (List.mem_inits _ _).mpr (List.prefix_refl l)⟩

theorem fuzzRatio_self (a : String) : fuzzRatio a a = 1 := ratioL_self a.data

theorem fuzzSubstr_self (a : String) : fuzzSubstr a a = 1 := by
  unfold fuzzSubstr
  simp only [le_refl, if_pos]
  refine le_antisymm (foldl_max_le_one _ 0 (by norm_num) (fun w _ => ratioL_le_one _ _)) ?_
  calc (1 : ℚ) = ratioL a.data a.data := (ratioL_self a.data).symm
    _ ≤ _ := foldl_max_ge_mem _ 0 a.data (mem_allSegs_self a.data)

theorem fuzzTokenSort_self (a : String) : fuzzTokenSort a a = 1 := ratioL_self _

/-! ### Identity Resolver: create_test_mapping from name_of_analysis.py -/

/-- Python dict assignment d[k] = v on an association list: update the
value in place if the key exists (keeping its position, as CPython dicts
do), otherwise append the binding at the end. -/
def dput : List (String × String) → String → String → List (String × String)
  | [], k, v => [(k, v)]
  | p :: rest, k, v => if p.1 = k then (k, v) :: rest else p :: dput rest k v

/-- Stage 1 of create_test_mapping: every JSON id that occurs verbatim
among the Excel ids is mapped to itself (source lines 174-181). -/
def exactPass (jsonIds excelIds : List String) : List (String × String) :=
  jsonIds.foldl (fun m j => if j ∈ excelIds then dput m j j else m) []

/-- Candidate score of the fuzzy branch with excel_test_names available:
the three-metric maximum on normalized ids, also compared against the
normalized catalog display name when one exists (source lines 196-225). -/
def scoreWithNames (fr fp ft : String → String → ℚ)
    (names : List (String × String)) (jn eid : String) : ℚ :=
  let en := normalize_column_name eid
  let s1 := max (max (fr jn en) (fp jn en)) (ft jn en)
  match names.lookup eid with
  | some nm =>
    let nn := normalize_column_name nm
    max s1 (max (max (fr jn nn) (fp jn nn)) (ft jn nn))
  | none => s1

/-- Candidate score of the fuzzy branch without excel_test_names
(source lines 235-253, rapidfuzz available). -/
def scoreNoNames (fr fp ft : String → String → ℚ) (jn eid : String) : ℚ :=
  let en := normalize_column_name eid
  max (max (fr jn en) (fp jn en)) (ft jn en)

/-- The best-candidate scan of the fuzzy stage: walk the remaining Excel
ids, skip those already used as mapping values, keep the first candidate
that strictly improves the best score while reaching the threshold
(source: score > best_score and score >= similarity_threshold). -/
def pickBest (score : String → ℚ) (thr : ℚ) (vals cands : List String) : Option String :=
  (cands.foldl (fun st e =>
    if e ∈ vals then st
    else
      let s := score e
      if st.2 < s ∧ thr ≤ s then (some e, s) else st)
    ((none : Option String), (0 : ℚ))).1

/-- The per-identifier fuzzy assignment loop: each remaining JSON id gets
its best not-yet-used Excel candidate, updating the mapping greedily in
list order. -/
def fuzzyLoop (score : String → String → ℚ) (thr : ℚ) (re : List String) :
    List String → List (String × String) → List (String × String)
  | [], m => m
  | j :: rest, m =>
    match pickBest (score (normalize_column_name j)) thr (m.map (fun p => p.2)) re with
    | some e => fuzzyLoop score thr re rest (dput m j e)
    | none => fuzzyLoop score thr re rest m

/-- create_test_mapping from name_of_analysis.py: exact matches first,
then the greedy fuzzy stage over the remaining ids (with the branch on
whether excel_test_names was provided); rapidfuzz is assumed available
and its metrics are passed in as fr/fp/ft. -/
def create_test_mapping (fr fp ft : String → String → ℚ)
    (jsonIds excelIds : List String) (excelTestNames : List (String × String))
    (thr : ℚ) : List (String × String) :=
  let m0 := exactPass jsonIds excelIds
  let rj := jsonIds.filter (fun j => (m0.lookup j).isNone)
  let re := excelIds.filter (fun e => !((m0.map (fun p => p.2)).contains e))
  if rj = [] ∨ re = [] then m0
  else if excelTestNames = [] then fuzzyLoop (scoreNoNames fr fp ft) thr re rj m0
  else fuzzyLoop (scoreWithNames fr fp ft excelTestNames) thr re rj m0

theorem lookup_dput_self (m : List (String × String)) (k v : String) :
    (dput m k v).lookup k = some v := by
  induction m with
  | nil => simp [dput, List.lookup]
  | cons p rest ih =>
    rw [dput]
    by_cases h : p.1 = k
    · rw [if_pos h]; simp [List.lookup]
    · rw [if_neg h]
      rw [List.lookup_cons]
      have : (k == p.1) = false := by
        simp only [beq_eq_false_iff_ne, ne_eq]
        exact fun hk => h hk.symm
      rw [this]
      exact ih

theorem lookup_dput_ne (m : List (String × String)) (k v k' : String) (h : k' ≠ k) :
    (dput m k v).lookup k' = m.lookup k' := by
  induction m with
  | nil =>
    simp only [dput, List.lookup]
    have : (k' == k) = false := by simpa using h
    rw [this]
  | cons p rest ih =>
    rw [dput]
    by_cases hp : p.1 = k
    · rw [if_pos hp]
      rw [List.lookup_cons, List.lookup_cons]
      have : (k' == k) = false := by simpa using h
      rw [this]
      have : (k' == p.1) = false := by
        simp only [beq_eq_false_iff_ne, ne_eq]
        intro hk; exact h (hk.trans hp)
      rw [this]
    · rw [if_neg hp]
      rw [List.lookup_cons, List.lookup_cons]
      cases hb : (k' == p.1)
      · exact ih
      · rfl

theorem exact_step_keeps (excelIds : List String) (tid : String) :
    ∀ (ids : List String) (m : List (String × String)), m.lookup tid = some tid →
      (ids.foldl (fun m j => if j ∈ excelIds then dput m j j else m) m).lookup tid
        = some tid := by
  intro ids
  induction ids with
  | nil => intro m h; simpa using h
  | cons j rest ih =>
    intro m h
    simp only [List.foldl_cons]
    refine ih _ ?_
    by_cases hj : j ∈ excelIds
    · rw [if_pos hj]
      by_cases hjt : j = tid
      · subst hjt; exact lookup_dput_self m j j
      · rw [lookup_dput_ne m j j tid (fun he => hjt he.symm)]
        exact h
    · rw [if_neg hj]; exact h

theorem exactPass_lookup (excelIds : List String) (tid : String) (h2 : tid ∈ excelIds) :
    ∀ (ids : List String) (m : List (String × String)), tid ∈ ids →
      (ids.foldl (fun m j => if j ∈ excelIds then dput m j j else m) m).lookup tid
        = some tid := by
  intro ids
  induction ids with
  | nil => intro m h; simp at h
  | cons j rest ih =>
    intro m h
    simp only [List.foldl_cons]
    rcases List.mem_cons.mp h with heq | hmem
    · subst heq
      refine exact_step_keeps excelIds tid rest _ ?_
      rw [if_pos h2]
      exact lookup_dput_self m tid tid
    · exact ih _ hmem

theorem fuzzyLoop_keeps (sc : String → String → ℚ) (thr : ℚ) (re : List String)
    (tid : String) :
    ∀ (js : List String) (m : List (String × String)), (∀ j ∈ js, j ≠ tid) →
      m.lookup tid = some tid →
      (fuzzyLoop sc thr re js m).lookup tid = some tid := by
  intro js
  induction js with
  | nil => intro m _ h; simpa [fuzzyLoop] using h
  | cons j rest ih =>
    intro m hne h
    rw [fuzzyLoop]
    rcases hpb : pickBest (sc (normalize_column_name j)) thr
        (m.map (fun p => p.2)) re with _ | e
    · simp only [hpb]
      exact ih m (fun x hx => hne x (by simp [hx])) h
    · simp only [hpb]
      refine ih (dput m j e) (fun x hx => hne x (by simp [hx])) ?_
      rw [lookup_dput_ne m j e tid (fun he => (hne j (by simp)) he.symm)]
      exact h

/-- C2: for every raw identifier that is character-for-character equal to a
catalog code, and for every threshold value and every similarity-metric
family, create_test_mapping maps that identifier to that code: the exact
stage runs first and never consults the threshold, and the fuzzy stage
only processes identifiers absent from the mapping. -/
theorem c2_exact_match_honored (fr fp ft : String → String → ℚ)
    (jsonIds excelIds : List String) (excelTestNames : List (String × String))
    (thr : ℚ) (tid : String) (h1 : tid ∈ jsonIds) (h2 : tid ∈ excelIds) :
    (create_test_mapping fr fp ft jsonIds excelIds excelTestNames thr).lookup tid
      = some tid := by
  simp only [create_test_mapping]
  have hm0 : (exactPass jsonIds excelIds).lookup tid = some tid := by
    unfold exactPass
    exact exactPass_lookup excelIds tid h2 jsonIds [] h1
  have hnotin : ∀ j ∈ jsonIds.filter
      (fun j => ((exactPass jsonIds excelIds).lookup j).isNone), j ≠ tid := by
    intro j hj hjt
    obtain ⟨_, hnone⟩ := List.mem_filter.mp hj
    rw [hjt, hm0] at hnone
    simp at hnone
  split
  · exact hm0
  · split
    · exact fuzzyLoop_keeps _ _ _ tid _ _ hnotin hm0
    · exact fuzzyLoop_keeps _ _ _ tid _ _ hnotin hm0

/-- Witness for c2_exact_match_honored: the identifier chem.alt equals the
catalog code chem.alt and is mapped to itself at threshold 17/20. -/
theorem c2_exact_match_honored_witness :
    "chem.alt" ∈ ["chem.alt"] ∧
    (create_test_mapping fuzzRatio fuzzSubstr fuzzTokenSort
      ["chem.alt"] ["chem.alt"] [] (17/20)).lookup "chem.alt" = some "chem.alt" :=
  ⟨by decide, c2_exact_match_honored fuzzRatio fuzzSubstr fuzzTokenSort
    ["chem.alt"] ["chem.alt"] [] (17/20) "chem.alt" (by decide) (by decide)⟩

/-! ### Claim C1 -/

theorem scoreNoNames_aa : scoreNoNames fuzzRatio fuzzSubstr fuzzTokenSort "a" "a" = 1 := by
  simp only [scoreNoNames]
  rw [show normalize_column_name "a" = "a" from by decide]
  rw [fuzzRatio_self, fuzzSubstr_self, fuzzTokenSort_self]
  simp

/-- C1: the mapping built by create_test_mapping is not a function of the
identifier set alone — it depends on the enumeration order of the
identifiers. The two runs below receive the same identifier set {A, A-space}
(the lists are permutations of each other), the same catalog and the same
threshold, yet the first run maps A to the code a while the second run
leaves A unmapped: the greedy fuzzy stage hands the single catalog code to
whichever identifier is enumerated first. process_json feeds
create_test_mapping the enumeration of a Python set (json_test_ids =
list(set(...))), whose order varies across interpreter runs under hash
randomization, so repeated runs on the same inputs can produce different
mappings. -/
theorem c1_mapping_depends_on_set_order :
    (["A", "A "] : List String).Perm ["A ", "A"] ∧
    (create_test_mapping fuzzRatio fuzzSubstr fuzzTokenSort
      ["A", "A "] ["a"] [] (17/20)).lookup "A" = some "a" ∧
    (create_test_mapping fuzzRatio fuzzSubstr fuzzTokenSort
      ["A ", "A"] ["a"] [] (17/20)).lookup "A" = none := by
  have hpb1 : ∀ m : List (String × String), m.map (fun p => p.2) = [] →
      pickBest (scoreNoNames fuzzRatio fuzzSubstr fuzzTokenSort "a") (17/20)
        (m.map (fun p => p.2)) ["a"] = some "a" := by
    intro m hm
    rw [hm]
    simp only [pickBest, List.foldl_cons, List.foldl_nil]
    rw [if_neg (by simp)]
    simp only [scoreNoNames_aa]
    rw [if_pos (by norm_num)]
  refine ⟨by decide, ?_, ?_⟩
  · have hctm : create_test_mapping fuzzRatio fuzzSubstr fuzzTokenSort
        ["A", "A "] ["a"] [] (17/20) =
        fuzzyLoop (scoreNoNames fuzzRatio fuzzSubstr fuzzTokenSort) (17/20)
          ["a"] ["A", "A "] [] := by
      simp only [create_test_mapping]
      rw [if_neg (by decide)]
      simp only [if_true]
      rw [show exactPass ["A", "A "] ["a"] = [] from by decide]
      simp [List.filter, List.lookup]
    rw [hctm, fuzzyLoop]
    rw [show normalize_column_name "A" = "a" from by decide]
    rw [hpb1 [] rfl]
    decide
  · have hctm : create_test_mapping fuzzRatio fuzzSubstr fuzzTokenSort
        ["A ", "A"] ["a"] [] (17/20) =
        fuzzyLoop (scoreNoNames fuzzRatio fuzzSubstr fuzzTokenSort) (17/20)
          ["a"] ["A ", "A"] [] := by
      simp only [create_test_mapping]
      rw [if_neg (by decide)]
      simp only [if_true]
      rw [show exactPass ["A ", "A"] ["a"] = [] from by decide]
      simp [List.filter, List.lookup]
    rw [hctm, fuzzyLoop]
    rw [show normalize_column_name "A " = "a" from by decide]
    rw [hpb1 [] rfl]
    decide

/-! ### Record Deduplicator and Outlier Filter: back/analytics/back.py -/

/-- A patient record: patient_id, date and the analyses mapping from test
id to measured value. A value some q is a measurement that float() parses
to the finite rational q; none stands for an entry whose value is missing,
unparseable, NaN or infinite. A record without an analyses key is
modelled by an empty list. -/
structure Record where
  pid : String
  date : String
  analyses : List (String × Option ℚ)
deriving DecidableEq

/-- The statistics dict returned by remove_empty_and_duplicates. -/
structure CleanStats where
  removed_empty : Nat
  removed_duplicates : Nat
  total_before : Nat
  total_after : Nat
deriving DecidableEq

/-- Does a record hold at least one analysis whose value parses to a
finite number (back.py lines 43-53)? -/
def hasValidAnalysis (p : Record) : Bool := p.analyses.any (fun a => a.2.isSome)

/-- The empty-record pass of back.py lines 35-58: keep records with a
valid analysis, in order, counting the removed ones (records whose
analyses dict is missing or empty fail the same test and are counted on
the dedicated branch of the source). -/
def emptyPass : List Record → List Record × Nat
  | [] => ([], 0)
  | p :: rest =>
    if hasValidAnalysis p then (p :: (emptyPass rest).1, (emptyPass rest).2)
    else ((emptyPass rest).1, (emptyPass rest).2 + 1)

/-- Insertion into an association list sorted by key (Python sorted over
dict items; dict keys are unique, so sorting by key is enough). -/
def insertByKey (x : String × Option ℚ) :
    List (String × Option ℚ) → List (String × Option ℚ)
  | [] => [x]
  | y :: ys => if lexLt y.1.data x.1.data then y :: insertByKey x ys else x :: y :: ys

/-- Canonical sorted-by-key form of an analyses dict. -/
def sortByKey (l : List (String × Option ℚ)) : List (String × Option ℚ) :=
  l.foldr insertByKey []

/-- The duplicate key of back.py lines 66-76: patient_id, date, and the
canonical sorted serialization of analyses (json.dumps of the sorted dict
is injective on this data, so the sorted association list itself serves
as the key). -/
def dupKey (p : Record) : String × String × List (String × Option ℚ) :=
  (p.pid, p.date, sortByKey p.analyses)

/-- The duplicate-removal pass of back.py lines 60-82: keep the first
record per key in input order, counting the dropped ones. -/
def dedupPass (seen : List (String × String × List (String × Option ℚ))) :
    List Record → List Record × Nat
  | [] => ([], 0)
  | p :: rest =>
    if dupKey p ∈ seen then
      ((dedupPass seen rest).1, (dedupPass seen rest).2 + 1)
    else
      (p :: (dedupPass (dupKey p :: seen) rest).1, (dedupPass (dupKey p :: seen) rest).2)

/-- remove_empty_and_duplicates from back.py (the clean step): the empty
pass followed by the duplicate pass, with the returned stats dict. -/
def remove_empty_and_duplicates (patients : List Record) : List Record × CleanStats :=
  ((dedupPass [] (emptyPass patients).1).1,
    ⟨(emptyPass patients).2, (dedupPass [] (emptyPass patients).1).2,
      patients.length, (dedupPass [] (emptyPass patients).1).1.length⟩)

theorem emptyPass_valid : ∀ (l : List Record), ∀ p ∈ (emptyPass l).1,
    hasValidAnalysis p = true := by
  intro l
  induction l with
  | nil => intro p hp; simp [emptyPass] at hp
  | cons q rest ih =>
    intro p hp
    rw [emptyPass] at hp
    by_cases hq : hasValidAnalysis q
    · rw [if_pos hq] at hp
      rcases List.mem_cons.mp hp with rfl | hp
      · exact hq
      · exact ih p hp
    · rw [if_neg hq] at hp
      exact ih p hp

theorem emptyPass_id : ∀ (l : List Record), (∀ p ∈ l, hasValidAnalysis p = true) →
    emptyPass l = (l, 0) := by
  intro l
  induction l with
  | nil => intro _; rfl
  | cons q rest ih =>
    intro h
    rw [emptyPass, if_pos (h q (by simp)), ih (fun p hp => h p (by simp [hp]))]

theorem dedupPass_fresh : ∀ (l : List Record) (seen : List _),
    (((dedupPass seen l).1.map dupKey).Nodup ∧
      ∀ k ∈ (dedupPass seen l).1.map dupKey, k ∉ seen) := by
  intro l
  induction l with
  | nil => intro seen; simp [dedupPass]
  | cons p rest ih =>
    intro seen
    rw [dedupPass]
    by_cases hp : dupKey p ∈ seen
    · rw [if_pos hp]
      exact ih seen
    · rw [if_neg hp]
      obtain ⟨ihn, ihs⟩ := ih (dupKey p :: seen)
      constructor
      · simp only [List.map_cons, List.nodup_cons]
        refine ⟨?_, ihn⟩
        intro hmem
        exact (ihs _ hmem) (by simp)
      · intro k hk
        simp only [List.map_cons, List.mem_cons] at hk
        rcases hk with rfl | hk
        · exact hp
        · intro hks
          exact (ihs k hk) (by simp [hks])

theorem dedupPass_id : ∀ (l : List Record) (seen : List _),
    (l.map dupKey).Nodup → (∀ k ∈ l.map dupKey, k ∉ seen) →
    dedupPass seen l = (l, 0) := by
  intro l
  induction l with
  | nil => intro seen _ _; rfl
  | cons p rest ih =>
    intro seen hn hs
    rw [dedupPass, if_neg (hs (dupKey p) (by simp))]
    simp only [List.map_cons, List.nodup_cons] at hn
    rw [ih (dupKey p :: seen) hn.2]
    intro k hk
    simp only [List.mem_cons]
    rintro (rfl | hks)
    · exact hn.1 hk
    · exact hs k (by simp [hk]) hks

theorem dedupPass_sub : ∀ (l : List Record) (seen : List _),
    ∀ p ∈ (dedupPass seen l).1, p ∈ l := by
  intro l
  induction l with
  | nil => intro seen p hp; simp [dedupPass] at hp
  | cons q rest ih =>
    intro seen p hp
    rw [dedupPass] at hp
    by_cases hq : dupKey q ∈ seen
    · rw [if_pos hq] at hp
      exact List.mem_cons_of_mem q (ih seen p hp)
    · rw [if_neg hq] at hp
      rcases List.mem_cons.mp hp with rfl | hp
      · exact List.mem_cons_self _ _
      · exact List.mem_cons_of_mem q (ih _ p hp)

/-- C5: remove_empty_and_duplicates is idempotent. Running it a second
time on its own output changes nothing: the patient list is returned
unchanged and the second run's stats report removed_empty = 0 and
removed_duplicates = 0 (with total_before = total_after = the list
length), for every input record list. -/
theorem c5_clean_idempotent (patients : List Record) :
    remove_empty_and_duplicates (remove_empty_and_duplicates patients).1 =
      ((remove_empty_and_duplicates patients).1,
        ⟨0, 0, (remove_empty_and_duplicates patients).1.length,
          (remove_empty_and_duplicates patients).1.length⟩) := by
  have hvalid : ∀ p ∈ (remove_empty_and_duplicates patients).1,
      hasValidAnalysis p = true := by
    intro p hp
    exact emptyPass_valid _ p (dedupPass_sub _ [] p hp)
  have he : emptyPass (remove_empty_and_duplicates patients).1 =
      ((remove_empty_and_duplicates patients).1, 0) := emptyPass_id _ hvalid
  have hd : dedupPass [] (remove_empty_and_duplicates patients).1 =
      ((remove_empty_and_duplicates patients).1, 0) := by
    refine dedupPass_id _ [] ?_ (by simp)
    exact (dedupPass_fresh (emptyPass patients).1 []).1
  rw [remove_empty_and_duplicates, he, hd]

/-- Finite values for test id t across the cohort, paired with the index
of the record they came from, in scan order: the zipped
test_values[t] / patient_indices[t] accumulators of remove_outliers_3sigma
(back.py lines 116-140). -/
def collectFrom (t : String) : Nat → List Record → List (Nat × ℚ)
  | _, [] => []
  | i, p :: rest =>
    p.analyses.filterMap (fun a => if a.1 = t then a.2.map (fun v => (i, v)) else none)
      ++ collectFrom t (i + 1) rest

/-- The per-test collection starting at index 0. -/
def collectFor (t : String) (patients : List Record) : List (Nat × ℚ) :=
  collectFrom t 0 patients

/-- The pre-filter value list of test id t (test_values[t]). -/
def preVals (t : String) (patients : List Record) : List ℚ :=
  (collectFor t patients).map (fun p => p.2)

/-- Mean of a rational list (np.mean; only consulted for lists of two or
more values). -/
def qmean (vs : List ℚ) : ℚ := vs.sum / vs.length

/-- Population variance, the square of np.std, computed exactly. -/
def qvar (vs : List ℚ) : ℚ := ((vs.map (fun v => (v - qmean vs) ^ 2)).sum) / vs.length

/-- The three-sigma bound check value < mean - 3*std or value > mean + 3*std
of back.py line 171, stated equivalently over exact rationals without the
irrational square root: (v - mean)^2 > 9 * variance (std = sqrt variance,
std >= 0). -/
def sqOutside (v mean variance : ℚ) : Bool := decide (9 * variance < (v - mean) ^ 2)

/-- Membership of (record index, test id) in outliers_to_remove (back.py
lines 142-173): the test collected at least two values with nonzero
std across the cohort, and the value contributed at this record index
lies outside the three-sigma bounds. -/
def isOutlierPair (patients : List Record) (i : Nat) (t : String) : Bool :=
  decide (2 ≤ (preVals t patients).length) &&
    !(decide (qvar (preVals t patients) = 0)) &&
    (collectFor t patients).any (fun p => p.1 = i &&
      sqOutside p.2 (qmean (preVals t patients)) (qvar (preVals t patients)))

/-- The per-record deletion of flagged outliers (back.py lines 185-199). -/
def outlierScrub (orig : List Record) : Nat → List Record → List Record
  | _, [] => []
  | i, p :: rest =>
    { p with analyses := p.analyses.filter (fun a => !(isOutlierPair orig i a.1)) }
      :: outlierScrub orig (i + 1) rest

/-- remove_outliers_3sigma from back.py: flag the per-test three-sigma
outliers from cohort statistics, delete them from each record's analyses,
then drop every record whose analyses became empty (back.py lines
201-211; the returned statistics dict is not modelled). -/
def remove_outliers_3sigma (patients : List Record) : List Record :=
  (outlierScrub patients 0 patients).filter (fun p => !p.analyses.isEmpty)

/-- Finite values recorded for test id t in a record list (used to state
that skipped test codes lose no values). -/
def valuesFor (t : String) (patients : List Record) : List ℚ :=
  patients.flatMap (fun p => p.analyses.filterMap
    (fun a => if a.1 = t then a.2 else none))

theorem mem_outlierScrub (orig : List Record) :
    ∀ (l : List Record) (i : Nat) (rec : Record), rec ∈ outlierScrub orig i l →
      ∃ j p, l.get? j = some p ∧
        rec = { p with analyses :=
          p.analyses.filter (fun a => !(isOutlierPair orig (i + j) a.1)) } := by
  intro l
  induction l with
  | nil => intro i rec h; simp [outlierScrub] at h
  | cons q rest ih =>
    intro i rec h
    rw [outlierScrub] at h
    rcases List.mem_cons.mp h with heq | hmem
    · exact ⟨0, q, rfl, by simpa using heq⟩
    · obtain ⟨j, p, hget, hrec⟩ := ih (i + 1) rec hmem
      refine ⟨j + 1, p, by simpa using hget, ?_⟩
      rw [hrec]
      have : i + 1 + j = i + (j + 1) := by omega
      rw [this]

theorem mem_collectFrom (t : String) (v : ℚ) :
    ∀ (l : List Record) (n j : Nat) (p : Record), l.get? j = some p →
      (t, some v) ∈ p.analyses → (n + j, v) ∈ collectFrom t n l := by
  intro l
  induction l with
  | nil => intro n j p h _; simp at h
  | cons q rest ih =>
    intro n j p hget hmem
    cases j with
    | zero =>
      simp only [List.get?_cons_zero, Option.some.injEq] at hget
      subst hget
      rw [collectFrom]
      refine List.mem_append.mpr (Or.inl ?_)
      refine List.mem_filterMap.mpr ⟨(t, some v), hmem, ?_⟩
      simp
    | succ j' =>
      simp only [List.get?_cons_succ] at hget
      rw [collectFrom]
      refine List.mem_append.mpr (Or.inr ?_)
      have := ih (n + 1) j' p hget hmem
      have harith : n + 1 + j' = n + (j' + 1) := by omega
      rwa [harith] at this

theorem isOutlierPair_skip (patients : List Record) (t : String)
    (h : (preVals t patients).length < 2 ∨ qvar (preVals t patients) = 0) :
    ∀ i, isOutlierPair patients i t = false := by
  intro i
  unfold isOutlierPair
  rcases h with h | h
  · have : ¬ (2 ≤ (preVals t patients).length) := by omega
    simp [this]
  · simp [h]

theorem filterMap_filter_keep {α β : Type} {f : α → Option β} {p : α → Bool}
    (h : ∀ a, f a ≠ none → p a = true) :
    ∀ l : List α, (l.filter p).filterMap f = l.filterMap f := by
  intro l
  induction l with
  | nil => rfl
  | cons a rest ih =>
    rw [List.filter_cons]
    by_cases hfa : f a = none
    · by_cases hpa : p a
      · rw [if_pos hpa]
        rw [List.filterMap_cons, List.filterMap_cons, hfa, ih]
      · rw [if_neg hpa]
        rw [List.filterMap_cons, hfa, ih]
    · rw [if_pos (h a hfa)]
      rw [List.filterMap_cons, List.filterMap_cons, ih]

theorem scrub_keeps_skipped (orig : List Record) (t : String)
    (h : ∀ i, isOutlierPair orig i t = false) :
    ∀ (l : List Record) (i : Nat),
      valuesFor t ((outlierScrub orig i l).filter (fun p => !p.analyses.isEmpty)) =
        valuesFor t l := by
  intro l
  induction l with
  | nil => intro i; rfl
  | cons q rest ih =>
    intro i
    rw [outlierScrub, List.filter_cons]
    have hkeep : (q.analyses.filter (fun a => !(isOutlierPair orig i a.1))).filterMap
        (fun a => if a.1 = t then a.2 else none) =
        q.analyses.filterMap (fun a => if a.1 = t then a.2 else none) := by
      refine filterMap_filter_keep ?_ q.analyses
      intro a hfa
      have hat : a.1 = t := by
        by_contra hne
        exact hfa (if_neg hne)
      rw [hat, h i]
      rfl
    have hvcons : ∀ (x : Record) (xs : List Record), valuesFor t (x :: xs) =
        x.analyses.filterMap (fun a => if a.1 = t then a.2 else none) ++ valuesFor t xs := by
      intro x xs
      unfold valuesFor
      rw [List.flatMap_cons]
    by_cases hemp : q.analyses.filter (fun a => !(isOutlierPair orig i a.1)) = []
    · have hq : q.analyses.filterMap (fun a => if a.1 = t then a.2 else none) = [] := by
        rw [← hkeep, hemp]
        rfl
      rw [hemp]
      rw [if_neg (by simp)]
      rw [ih (i + 1), hvcons, hq]
      simp
    · rw [if_pos (by simp [hemp])]
      rw [hvcons, hvcons]
      show (q.analyses.filter (fun a => !(isOutlierPair orig i a.1))).filterMap
        (fun a => if a.1 = t then a.2 else none) ++ _ = _
      rw [hkeep, ih (i + 1)]

/-- C4: for every record list and test code t, if t collected at least two
finite values with nonzero variance across the cohort, then after
remove_outliers_3sigma no retained value for t lies outside the
three-sigma band around the pre-filter mean — (v - mean)^2 <= 9 * variance
is the exact-arithmetic form of mean - 3*std <= v <= mean + 3*std — and
if t has fewer than two values or zero variance it is skipped: the values
recorded for t after filtering are exactly the pre-filter ones. -/
theorem c4_outliers_within_bounds (patients : List Record) (t : String) :
    (2 ≤ (preVals t patients).length → qvar (preVals t patients) ≠ 0 →
      ∀ rec ∈ remove_outliers_3sigma patients, ∀ a ∈ rec.analyses, a.1 = t →
        ∀ v : ℚ, a.2 = some v →
          (v - qmean (preVals t patients)) ^ 2 ≤ 9 * qvar (preVals t patients)) ∧
    ((preVals t patients).length < 2 ∨ qvar (preVals t patients) = 0 →
      valuesFor t (remove_outliers_3sigma patients) = valuesFor t patients) := by
  constructor
  · intro hlen hvar rec hrec a ha hat v hav
    have haeq : a = (t, some v) := Prod.ext hat hav
    subst haeq
    have hrec' : rec ∈ outlierScrub patients 0 patients := List.mem_of_mem_filter hrec
    obtain ⟨j, p, hget, hreq⟩ := mem_outlierScrub patients patients 0 rec hrec'
    subst hreq
    have ha' : (t, some v) ∈ p.analyses.filter
        (fun x => !(isOutlierPair patients (0 + j) x.1)) := ha
    obtain ⟨hmem, hpred⟩ := List.mem_filter.mp ha'
    have hpair : isOutlierPair patients (0 + j) t = false := by
      simpa using hpred
    have hcol : (0 + j, v) ∈ collectFor t patients :=
      mem_collectFrom t v patients 0 j p hget hmem
    have hany : (collectFor t patients).any (fun q => q.1 = (0 + j) &&
        sqOutside q.2 (qmean (preVals t patients)) (qvar (preVals t patients))) = false := by
      unfold isOutlierPair at hpair
      simpa [hlen, hvar] using hpair
    have hq := List.any_eq_false.mp hany _ hcol
    simp only [sqOutside, Bool.and_eq_true, decide_eq_true_eq, not_and] at hq
    exact not_lt.mp (hq trivial)
  · intro h
    exact scrub_keeps_skipped patients t (isOutlierPair_skip patients t h) patients 0

/-- Two-record cohort used to witness the outlier-filter theorem. -/
def c4pats : List Record :=
  [⟨"p1", "d1", [("glu", some 1)]⟩, ⟨"p2", "d2", [("glu", some 2)]⟩]

/-- Witness for c4_outliers_within_bounds: the code glu has two values
with nonzero variance and every retained value satisfies the bound. -/
theorem c4_outliers_within_bounds_witness :
    (2 ≤ (preVals "glu" c4pats).length ∧ qvar (preVals "glu" c4pats) ≠ 0) ∧
    (∀ rec ∈ remove_outliers_3sigma c4pats, ∀ a ∈ rec.analyses, a.1 = "glu" →
      ∀ v : ℚ, a.2 = some v →
        (v - qmean (preVals "glu" c4pats)) ^ 2 ≤ 9 * qvar (preVals "glu" c4pats)) := by
  have hlen : 2 ≤ (preVals "glu" c4pats).length := by decide
  have hpre : preVals "glu" c4pats = [1, 2] := by decide
  have hvar : qvar (preVals "glu" c4pats) ≠ 0 := by
    rw [hpre]
    norm_num [qvar, qmean, List.sum_cons, List.sum_nil, List.map_cons, List.map_nil,
      List.length_cons, List.length_nil]
  exact ⟨⟨hlen, hvar⟩, (c4_outliers_within_bounds c4pats "glu").1 hlen hvar⟩

/-! ### Category Grouper and Abnormal Detection: back/app/routers/demo.py -/

/-- One norms entry as load_norms builds them from data.json:
{min, max, unit, name}. -/
structure NormEnt where
  min : Option ℚ
  max : Option ℚ
  unit : String
  name : String
deriving DecidableEq

/-- The norms dictionary returned by load_norms: the per-code entries and
the reserved _name_mapping table (lowercased name -> code), modelled as a
two-field structure instead of a dict with a reserved key. -/
structure Norms where
  entries : List (String × NormEnt)
  nameMap : List (String × String)
deriving DecidableEq

/-- One long-format data row as the demo endpoints build them before
grouping. value is some q when float(row value) succeeds with the finite
rational q (a missing value key reads as the default 0); none when
float() raises. -/
structure Row where
  test_code : String
  test_name : String
  value : Option ℚ
  date : String
  unit : String
  status : String
deriving DecidableEq

/-- An output test entry of group_by_category. -/
structure Entry where
  test_code : String
  name : String
  value : Option ℚ
  unit : String
  date : String
  status : String
  norm_min : Option ℚ
  norm_max : Option ℚ
  has_dynamics : Bool
deriving DecidableEq

/-- An output entry of get_abnormal_tests. -/
structure AbnEntry where
  test_code : String
  name : String
  value : ℚ
  unit : String
  status : String
  norm_min : Option ℚ
  norm_max : Option ℚ
  date : String
deriving DecidableEq

/-- normalize_test_code from demo.py: strip whitespace, lower-case;
empty codes map to the empty string. -/
def normalize_test_code (s : String) : String :=
  if s = "" then "" else lowerStr (stripWs s)

/-- normalize_test_name from demo.py: strip and lower-case, rewrite
alanine to alt, drop transaminase, then drop spaces, hyphens and
underscores. -/
def normalize_test_name (s : String) : String :=
  if s = "" then ""
  else
    replaceAll (replaceAll (replaceAll
      (replaceAll (replaceAll (lowerStr (stripWs s)) "alanine" "alt")
        "transaminase" "")
      " " "") "-" "") "_" ""

/-- Is the value below a known lower bound? -/
def belowMin (v : ℚ) : Option ℚ → Bool
  | some m => decide (v < m)
  | none => false

/-- Is the value above a known upper bound? -/
def aboveMax (v : ℚ) : Option ℚ → Bool
  | some m => decide (m < v)
  | none => false

/-- check_value_against_norm from demo.py. -/
def check_value_against_norm (v : ℚ) (nmin nmax : Option ℚ) : String :=
  if nmin = none ∧ nmax = none then "NORMAL"
  else if belowMin v nmin then "LOW"
  else if aboveMax v nmax then "HIGH"
  else "NORMAL"

/-- Relative deviation below the minimum exceeds 10 percent. A zero bound
would raise ZeroDivisionError in the source; rational division by zero
yields 0 here, so the embedded predicate is false there. -/
def sigLow (v : ℚ) : Option ℚ → Bool
  | some m => decide ((1 : ℚ)/10 < (m - v) / m)
  | none => false

/-- Relative deviation above the maximum exceeds 10 percent. -/
def sigHigh (v : ℚ) : Option ℚ → Bool
  | some m => decide ((1 : ℚ)/10 < (v - m) / m)
  | none => false

/-- is_significantly_abnormal from demo.py. -/
def is_significantly_abnormal (v : ℚ) (nmin nmax : Option ℚ) : Bool :=
  if nmin = none ∧ nmax = none then false
  else if belowMin v nmin then sigLow v nmin
  else if aboveMax v nmax then sigHigh v nmax
  else false

/-- get_norm_info from demo.py: direct code lookup, then the name-mapping
table (skipping empty mapped codes and codes without entries, which the
source treats as the falsy empty dict), then a substring scan over entry
names. -/
def get_norm_info (test_code test_name : String) (norms : Norms) : Option NormEnt :=
  match norms.entries.lookup test_code with
  | some nd => some nd
  | none =>
    match (norms.nameMap.lookup (lowerStr test_name)).bind
        (fun mc => if mc = "" then none else norms.entries.lookup mc) with
    | some nd => some nd
    | none =>
      norms.entries.findSome? (fun p =>
        if lowerStr p.2.name ≠ "" ∧
            (strContains (lowerStr p.2.name) (lowerStr test_name) ∨
             strContains (lowerStr test_name) (lowerStr p.2.name))
        then some p.2 else none)

/-- The biochemistry_name_keywords list of get_test_category. -/
def biochemistry_name_keywords : List String :=
  ["alanine", "transaminase", "alt", "ast", "aspartate", "glucose",
   "creatinine", "albumin", "bilirubin", "urea", "bun", "calcium",
   "potassium", "sodium", "chloride", "phosphate", "magnesium",
   "protein", "ldh", "alkaline", "phosphatase", "egfr", "gfr",
   "lactate", "dehydrogenase", "troponin", "ck", "creatine", "kinase"]

/-- The biochemistry_tests set of known bare biochemistry codes. -/
def biochemistry_tests : List String :=
  ["alt", "ast", "glucose", "creatinine", "albumin", "bilirubin", "bun",
   "calcium", "co2", "cl", "egfr", "ldh", "magnesium", "phosphate",
   "potassium", "protein", "sodium", "t_bili", "alkaline_phosphatase",
   "globin", "egfr_aa", "egfr_non_aa", "troponin", "ck", "ck_mb"]

/-- The later biochemistry_keywords list (lines 170-175). -/
def biochemistry_keywords2 : List String :=
  ["alanine", "transaminase", "alt", "ast", "aspartate", "glucose",
   "creatinine", "albumin", "bilirubin", "urea", "bun", "calcium",
   "potassium", "sodium", "chloride", "phosphate", "magnesium",
   "protein", "ldh", "alkaline", "phosphatase", "egfr", "gfr"]

/-- The blood_count_keywords list (lines 177-181). -/
def blood_count_keywords : List String :=
  ["hemoglobin", "hgb", "hct", "hematocrit", "rbc", "wbc", "platelet",
   "lymphocyte", "neutrophil", "monocyte", "eosinophil", "basophil",
   "mcv", "mch", "mchc", "rdw"]

/-- Base code with the chem./bc./lip. markers removed (str.replace on the
lowered code, then strip). -/
def baseCode (cl : String) : String :=
  stripWs (replaceAll (replaceAll (replaceAll cl "chem." "") "bc." "") "lip." "")

/-- The code-classification chain used by the norms scan inside
get_test_category (lines 152-164), in source order. -/
def normScanCat (code : String) : Option String :=
  if strStarts code "chem." then some "biochemistry"
  else if strStarts code "bc." then some "blood_count"
  else if strStarts code "lip." then some "lipid_profile"
  else if strStarts code "am." then some "anthropometry"
  else if strStarts code "infl." then some "inflammation"
  else if strStarts code "cmv." then some "infections"
  else none

/-- Truthiness of the norms dict (load_norms output always carries the
_name_mapping key, an empty dict does not). -/
def normsTruthy (norms : Norms) : Bool :=
  !norms.entries.isEmpty || !norms.nameMap.isEmpty

/-- get_test_category from demo.py, branch for branch in source order. -/
def get_test_category (test_code test_name : String) (norms : Norms) : String :=
  if test_code = "" then "other"
  else
    let cl := lowerStr test_code
    let nl := lowerStr test_name
    if nl ≠ "" ∧ biochemistry_name_keywords.any (fun k => strContains nl k) then
      "biochemistry"
    else if cl = "chem.chol" ∨ strContains cl "cholesterol" then "lipid_profile"
    else if baseCode cl ∈ biochemistry_tests then "biochemistry"
    else if strStarts cl "am." then "anthropometry"
    else if strStarts cl "chem." then "biochemistry"
    else if strStarts cl "bc." then
      (if baseCode cl ∈ biochemistry_tests then "biochemistry" else "blood_count")
    else if strStarts cl "cmv." then "infections"
    else if strStarts cl "infl." then "inflammation"
    else if strStarts cl "lip." then "lipid_profile"
    else
      match (if normsTruthy norms ∧ test_name ≠ "" then
          norms.entries.findSome? (fun p =>
            if strContains (lowerStr p.2.name) nl ∨ strContains nl (lowerStr p.2.name)
            then normScanCat p.1 else none)
        else none) with
      | some c => c
      | none =>
        if test_name ≠ "" ∧ biochemistry_keywords2.any (fun k => strContains nl k) then
          "biochemistry"
        else if test_name ≠ "" ∧ blood_count_keywords.any (fun k => strContains nl k) then
          "blood_count"
        else "biochemistry"

/-- The seven category keys of the groups dict, in insertion order. -/
def sevenCategories : List String :=
  ["demography", "anthropometry", "biochemistry", "blood_count",
   "infections", "inflammation", "lipid_profile"]

/-- Increment a counter in an association map (Python
counts[k] = counts.get(k, 0) + 1). -/
def bumpCount : List (String × Nat) → String → List (String × Nat)
  | [], k => [(k, 1)]
  | p :: rest, k => if p.1 = k then (p.1, p.2 + 1) :: rest else p :: bumpCount rest k

/-- The first counting pass of group_by_category (lines 287-298): count
the rows per normalized test code (rows with an empty stripped code are
skipped). -/
def countsOf (data : List Row) : List (String × Nat) :=
  data.foldl (fun m row =>
    if stripWs row.test_code = "" then m
    else if normalize_test_code (stripWs row.test_code) = "" then m
    else bumpCount m (normalize_test_code (stripWs row.test_code))) []

/-- counts.get(k, 0). -/
def countVal (m : List (String × Nat)) (k : String) : Nat := (m.lookup k).getD 0

/-- Does the lowered code contain one of the recognized category markers
(Python: 'chem.' in code.lower() or 'bc.' in ... or 'lip.' in ...)? -/
def hasCatPfx (code : String) : Bool :=
  strContains (lowerStr code) "chem." || strContains (lowerStr code) "bc." ||
    strContains (lowerStr code) "lip."

/-- The test_data dict built for one row (demo.py lines 345-370). The
source reads the unit from the row dict with the norms unit as default;
the demo endpoints always populate the unit key, so the row unit is
used. -/
def mkGroupEntry (norms : Norms) (counts : List (String × Nat)) (row : Row)
    (oc tn nc : String) : Entry :=
  let ni := get_norm_info oc tn norms
  let nmin := ni.bind (fun nd => nd.min)
  let nmax := ni.bind (fun nd => nd.max)
  let nname := match ni with | some nd => nd.name | none => tn
  { test_code := oc
    name := if nname = "" then tn else nname
    value := row.value
    unit := row.unit
    date := row.date
    status := match row.value with
      | some v => check_value_against_norm v nmin nmax
      | none => "NORMAL"
    norm_min := nmin
    norm_max := nmax
    has_dynamics := decide (1 < countVal counts nc) }

/-- In-place value update of a dict binding (position preserved). -/
def updEntry (ctab : List (String × Entry)) (k : String) (e : Entry) :
    List (String × Entry) :=
  ctab.map (fun p => if p.1 = k then (k, e) else p)

/-- Python del ctab[k]. -/
def eraseKey (ctab : List (String × Entry)) (k : String) : List (String × Entry) :=
  ctab.filter (fun p => p.1 ≠ k)

/-- The duplicate-detection scan of demo.py lines 385-436, with its early
break: returns (is_duplicate, duplicate_key). Only entered when the
normalized new name is non-empty. -/
def dupScan (oc nc tnn curDate : String) : List (String × Entry) → Bool × Option String
  | [] => (false, none)
  | (ek, ee) :: rest =>
    let np := hasCatPfx oc
    let ep := hasCatPfx ee.test_code
    let nameHit : Option (Bool × Option String) :=
      if tnn = normalize_test_name ee.name then
        (if np && !ep then some (true, some ek)
         else if !np && ep then some (true, none)
         else if nc = ek then
           some (true, if sLt ee.date curDate then some ek else none)
         else none)
      else none
    match nameHit with
    | some r => r
    | none =>
      if nc ≠ ek ∧ baseCode (lowerStr oc) = baseCode (lowerStr ee.test_code) ∧
          baseCode (lowerStr oc) ≠ "" then
        (if np && !ep then (true, some ek)
         else if !np && ep then (true, none)
         else dupScan oc nc tnn curDate rest)
      else dupScan oc nc tnn curDate rest

/-- The per-row update of one category table (demo.py lines 372-445):
replace on a later date when the normalized code is already present,
otherwise run the duplicate scan and insert/replace/skip accordingly. -/
def catStep (norms : Norms) (counts : List (String × Nat)) (row : Row)
    (oc tn nc : String) (ctab : List (String × Entry)) : List (String × Entry) :=
  let e := mkGroupEntry norms counts row oc tn nc
  match ctab.lookup nc with
  | some ex => if sLt ex.date row.date then updEntry ctab nc e else ctab
  | none =>
    if normalize_test_name tn = "" then ctab ++ [(nc, e)]
    else
      match dupScan oc nc (normalize_test_name tn) row.date ctab with
      | (false, _) => ctab ++ [(nc, e)]
      | (true, some dk) => eraseKey ctab dk ++ [(nc, e)]
      | (true, none) => ctab

/-- One row of the grouping pass (demo.py lines 321-445). -/
def groupStep (norms : Norms) (counts : List (String × Nat))
    (tbl : List (String × List (String × Entry))) (row : Row) :
    List (String × List (String × Entry)) :=
  if stripWs row.test_code = "" then tbl
  else if normalize_test_code (stripWs row.test_code) = "" then tbl
  else
    let oc := stripWs row.test_code
    let tn := stripWs row.test_name
    let nc := normalize_test_code oc
    let cat := get_test_category oc tn norms
    if cat ∈ sevenCategories then
      tbl.map (fun p => if p.1 = cat then (p.1, catStep norms counts row oc tn nc p.2) else p)
    else tbl

/-- group_by_category from demo.py: the groups dict is created with the
seven category keys, filled from the per-category tables, and returned
with exactly those keys. -/
def group_by_category (data : List Row) (norms : Norms) : List (String × List Entry) :=
  let counts := countsOf data
  let tbl := data.foldl (groupStep norms counts)
    (sevenCategories.map (fun c => (c, ([] : List (String × Entry)))))
  sevenCategories.map (fun c => (c, ((tbl.lookup c).getD []).map (fun p => p.2)))

/-- The entries listed under one category key. -/
def lookupGroups (groups : List (String × List Entry)) (cat : String) : List Entry :=
  (groups.lookup cat).getD []

/-! ### Association-list facts shared by the grouping claims -/

theorem lookup_mem {β : Type} : ∀ (l : List (String × β)) (c : String) (v : β),
    l.lookup c = some v → (c, v) ∈ l := by
  intro l
  induction l with
  | nil => intro c v h; simp [List.lookup] at h
  | cons p rest ih =>
    intro c v h
    rw [List.lookup_cons] at h
    cases hb : (c == p.1) with
    | false => rw [hb] at h; exact List.mem_cons_of_mem p (ih c v h)
    | true =>
      rw [hb] at h
      simp only [Option.some.injEq] at h
      have hc : c = p.1 := by simpa using hb
      subst h
      rw [hc]
      exact List.mem_cons_self _ _

theorem lookup_none_not_mem {β : Type} : ∀ (l : List (String × β)) (c : String),
    l.lookup c = none → ∀ p ∈ l, p.1 ≠ c := by
  intro l
  induction l with
  | nil => intro c _ p hp; simp at hp
  | cons q rest ih =>
    intro c h p hp
    rw [List.lookup_cons] at h
    cases hb : (c == q.1) with
    | true => rw [hb] at h; simp at h
    | false =>
      rw [hb] at h
      rcases List.mem_cons.mp hp with rfl | hp
      · intro hq; rw [hq] at hb; simp at hb
      · exact ih c h p hp

theorem lookup_map_pair_none {β : Type} (f : String → β) :
    ∀ (l : List String) (c : String), c ∉ l →
      (l.map (fun x => (x, f x))).lookup c = none := by
  intro l
  induction l with
  | nil => intro c _; rfl
  | cons x t ih =>
    intro c hc
    simp only [List.map_cons, List.lookup_cons]
    have hb : (c == x) = false := by
      simp only [beq_eq_false_iff_ne, ne_eq]
      intro h; exact hc (by simp [h])
    rw [hb]
    exact ih c (fun h => hc (by simp [h]))

theorem nodup_key_unique {β : Type} : ∀ (l : List (String × β)),
    (l.map (fun p => p.1)).Nodup →
    ∀ p ∈ l, ∀ q ∈ l, p.1 = q.1 → p = q := by
  intro l
  induction l with
  | nil => intro _ p hp; simp at hp
  | cons x rest ih =>
    intro hn p hp q hq hpq
    simp only [List.map_cons, List.nodup_cons] at hn
    rcases List.mem_cons.mp hp with hpx | hpr
    · rcases List.mem_cons.mp hq with hqx | hqr
      · rw [hpx, hqx]
      · subst hpx
        refine absurd ?_ hn.1
        rw [hpq]
        exact List.mem_map_of_mem (fun r => r.1) hqr
    · rcases List.mem_cons.mp hq with hqx | hqr
      · subst hqx
        refine absurd ?_ hn.1
        rw [← hpq]
        exact List.mem_map_of_mem (fun r => r.1) hpr
      · exact ih hn.2 p hpr q hqr hpq

/-! ### Claim C10 -/

/-- C10: for every row list and norms table, group_by_category returns a
dict with exactly the seven keys demography, anthropometry, biochemistry,
blood_count, infections, inflammation, lipid_profile (in that order); an
"other" group — or any other key — never appears, so a row whose inferred
category is not one of the seven keys contributes to no group. -/
theorem c10_exactly_seven_categories (data : List Row) (norms : Norms) :
    (group_by_category data norms).map (fun p => p.1) = sevenCategories ∧
    (∀ cat : String, cat ∉ sevenCategories →
      (group_by_category data norms).lookup cat = none) := by
  constructor
  · simp only [group_by_category]
    rw [List.map_map]
    exact List.map_id sevenCategories
  · intro cat hcat
    simp only [group_by_category]
    exact lookup_map_pair_none _ sevenCategories cat hcat

/-- Witness for c10_exactly_seven_categories: on an empty upload with an
empty norms table the keys are the seven categories and there is no
"other" group. -/
theorem c10_exactly_seven_categories_witness :
    (group_by_category [] ⟨[], []⟩).map (fun p => p.1) = sevenCategories ∧
    (group_by_category [] ⟨[], []⟩).lookup "other" = none :=
  ⟨(c10_exactly_seven_categories [] ⟨[], []⟩).1,
    (c10_exactly_seven_categories [] ⟨[], []⟩).2 "other" (by decide)⟩

/-! ### Claim C7 -/

/-- The property every stored group entry satisfies: its has_dynamics flag
equals the more-than-one-row test on the pre-grouping counts for its own
normalized code. -/
def dynOk (counts : List (String × Nat)) (e : Entry) : Prop :=
  e.has_dynamics = decide (1 < countVal counts (normalize_test_code e.test_code))

theorem dynOk_mk (norms : Norms) (counts : List (String × Nat)) (row : Row)
    (oc tn : String) :
    dynOk counts (mkGroupEntry norms counts row oc tn (normalize_test_code oc)) := rfl

theorem catStep_entries (norms : Norms) (counts : List (String × Nat)) (row : Row)
    (oc tn nc : String) (ctab : List (String × Entry)) :
    ∀ p ∈ catStep norms counts row oc tn nc ctab,
      p.2 = mkGroupEntry norms counts row oc tn nc ∨ ∃ q ∈ ctab, p.2 = q.2 := by
  intro p hp
  simp only [catStep] at hp
  split at hp
  · split at hp
    · simp only [updEntry] at hp
      obtain ⟨q, hq, hpq⟩ := List.mem_map.mp hp
      by_cases hqk : q.1 = nc
      · rw [if_pos hqk] at hpq
        left
        rw [← hpq]
      · rw [if_neg hqk] at hpq
        right
        exact ⟨q, hq, by rw [← hpq]⟩
    · right; exact ⟨p, hp, rfl⟩
  · split at hp
    · rcases List.mem_append.mp hp with hl | hr
      · right; exact ⟨p, hl, rfl⟩
      · left
        simp only [List.mem_singleton] at hr
        rw [hr]
    · split at hp
      · rcases List.mem_append.mp hp with hl | hr
        · right; exact ⟨p, hl, rfl⟩
        · left
          simp only [List.mem_singleton] at hr
          rw [hr]
      · rcases List.mem_append.mp hp with hl | hr
        · right
          exact ⟨p, List.mem_of_mem_filter hl, rfl⟩
        · left
          simp only [List.mem_singleton] at hr
          rw [hr]
      · right; exact ⟨p, hp, rfl⟩

/-- The per-table invariant of the C7 proof. -/
def tblInv (counts : List (String × Nat))
    (tbl : List (String × List (String × Entry))) : Prop :=
  ∀ c ∈ tbl, ∀ q ∈ c.2, dynOk counts q.2

theorem groupStep_inv (norms : Norms) (counts : List (String × Nat))
    (tbl : List (String × List (String × Entry))) (row : Row)
    (h : tblInv counts tbl) : tblInv counts (groupStep norms counts tbl row) := by
  simp only [groupStep]
  split
  · exact h
  · split
    · exact h
    · split
      · intro c hc q hq
        obtain ⟨p, hp, hcp⟩ := List.mem_map.mp hc
        by_cases hpcat : p.1 = get_test_category (stripWs row.test_code)
            (stripWs row.test_name) norms
        · rw [if_pos hpcat] at hcp
          rw [← hcp] at hq
          rcases catStep_entries norms counts row (stripWs row.test_code)
              (stripWs row.test_name) (normalize_test_code (stripWs row.test_code))
              p.2 q hq with hmk | ⟨q', hq', hqq⟩
          · unfold dynOk
            rw [hmk]
            exact dynOk_mk norms counts row (stripWs row.test_code) (stripWs row.test_name)
          · unfold dynOk
            rw [hqq]
            exact h p hp q' hq'
        · rw [if_neg hpcat] at hcp
          rw [← hcp] at hq
          exact h p hp q hq
      · exact h

theorem foldl_groupStep_inv (norms : Norms) (counts : List (String × Nat)) :
    ∀ (rows : List Row) (tbl : List (String × List (String × Entry))),
      tblInv counts tbl → tblInv counts (rows.foldl (groupStep norms counts) tbl) := by
  intro rows
  induction rows with
  | nil => intro tbl h; simpa using h
  | cons r rest ih =>
    intro tbl h
    simp only [List.foldl_cons]
    exact ih _ (groupStep_inv norms counts tbl r h)

theorem lookup_map_pair {β : Type} (f : String → β) :
    ∀ (l : List String) (c : String), c ∈ l →
      (l.map (fun x => (x, f x))).lookup c = some (f c) := by
  intro l
  induction l with
  | nil => intro c hc; simp at hc
  | cons x t ih =>
    intro c hc
    simp only [List.map_cons, List.lookup_cons]
    by_cases hcx : c = x
    · subst hcx
      simp
    · have hb : (c == x) = false := by simpa using hcx
      rw [hb]
      rcases List.mem_cons.mp hc with heq | hmem
      · exact absurd heq hcx
      · exact ih c hmem

/-- C7 amended: the has_dynamics flag on every entry returned by
group_by_category is true exactly when at least two pre-grouping rows
(counted with multiplicity, regardless of whether their dates are
distinct) carry the same normalized test code. -/
theorem c7_amended_has_dynamics (data : List Row) (norms : Norms) (cat : String)
    (e : Entry) (he : e ∈ lookupGroups (group_by_category data norms) cat) :
    e.has_dynamics =
      decide (1 < countVal (countsOf data) (normalize_test_code e.test_code)) := by
  by_cases hc : cat ∈ sevenCategories
  · unfold lookupGroups group_by_category at he
    rw [lookup_map_pair _ sevenCategories cat hc] at he
    simp only [Option.getD_some] at he
    obtain ⟨q, hq, hqe⟩ := List.mem_map.mp he
    rcases hl : (List.foldl (groupStep norms (countsOf data))
        (sevenCategories.map (fun c => (c, ([] : List (String × Entry))))) data).lookup cat
      with _ | lst
    · rw [hl] at hq
      simp at hq
    · rw [hl] at hq
      simp only [Option.getD_some] at hq
      have hmem := lookup_mem _ cat lst hl
      have hinv := foldl_groupStep_inv norms (countsOf data) data
        (sevenCategories.map (fun c => (c, ([] : List (String × Entry)))))
        (by intro c hcm q' hq'; obtain ⟨x, _, hx⟩ := List.mem_map.mp hcm;
            rw [← hx] at hq'; simp at hq')
      have := hinv (cat, lst) hmem q hq
      unfold dynOk at this
      rw [hqe] at this
      exact this
  · unfold lookupGroups group_by_category at he
    rw [lookup_map_pair_none _ sevenCategories cat hc] at he
    simp at he

/-- The repeated measurement row of the C7 counterexample. -/
def c7row : Row := ⟨"chem.alt", "", some 30, "2024-01-01", "", ""⟩

/-- C7 counterexample: grouping two identical chem.alt rows measured on
the SAME date produces one biochemistry entry whose has_dynamics flag is
true, although only one distinct dated measurement exists for that code —
the source counts rows (test_code_counts), not distinct dates, so the
claimed "iff at least 2 distinct dated measurements" fails. -/
theorem c7_counterexample_same_date :
    lookupGroups (group_by_category [c7row, c7row] ⟨[], []⟩) "biochemistry" =
      [⟨"chem.alt", "", some 30, "", "2024-01-01", "NORMAL", none, none, true⟩] ∧
    (([c7row, c7row].filter (fun row => stripWs row.test_code ≠ "" &&
        normalize_test_code (stripWs row.test_code) == "chem.alt")).map
      (fun row => row.date)).dedup = ["2024-01-01"] := by
  constructor
  · decide
  · decide

/-- Witness for c7_amended_has_dynamics at the counterexample data. -/
theorem c7_amended_has_dynamics_witness :
    (⟨"chem.alt", "", some 30, "", "2024-01-01", "NORMAL", none, none, true⟩ : Entry) ∈
      lookupGroups (group_by_category [c7row, c7row] ⟨[], []⟩) "biochemistry" ∧
    (⟨"chem.alt", "", some 30, "", "2024-01-01", "NORMAL", none, none, true⟩ : Entry).has_dynamics =
      decide (1 < countVal (countsOf [c7row, c7row])
        (normalize_test_code
          (⟨"chem.alt", "", some 30, "", "2024-01-01", "NORMAL", none, none, true⟩ : Entry).test_code)) :=
  ⟨by decide, c7_amended_has_dynamics [c7row, c7row] ⟨[], []⟩ "biochemistry"
    ⟨"chem.alt", "", some 30, "", "2024-01-01", "NORMAL", none, none, true⟩ (by decide)⟩

/-! ### Claim C8: get_abnormal_tests from demo.py -/

theorem lexLt_asymm {a b : List Char} (h : lexLt a b = true) : lexLt b a = false := by
  by_contra hba
  have hba' : lexLt b a = true := by revert hba; cases lexLt b a <;> simp
  have htrans := lexLt_trans h hba'
  rw [lexLt_irrefl] at htrans
  simp at htrans

theorem sLt_irrefl (a : String) : sLt a a = false := lexLt_irrefl a.data

theorem sLt_asymm {a b : String} (h : sLt a b = true) : sLt b a = false := lexLt_asymm h

/-- The status carried by the row (from the CSV), stripped and
upper-cased; empty when the row status is falsy. -/
def statusFromRow (row : Row) : String :=
  if row.status = "" then "" else upperStr (stripWs row.status)

/-- Does get_abnormal_tests include this row? Rows whose value fails
float() are skipped; a CSV-provided HIGH/LOW status forces inclusion
unconditionally; otherwise the row needs known bounds, a non-NORMAL
computed status and a significant (more than 10 percent) deviation
(demo.py lines 458-484). -/
def rowIncluded (norms : Norms) (row : Row) : Bool :=
  match row.value with
  | none => false
  | some v =>
    if statusFromRow row = "HIGH" ∨ statusFromRow row = "LOW" then true
    else
      let ni := get_norm_info row.test_code row.test_name norms
      let nmin := ni.bind (fun nd => nd.min)
      let nmax := ni.bind (fun nd => nd.max)
      if nmin = none ∧ nmax = none then false
      else decide (check_value_against_norm v nmin nmax ≠ "NORMAL") &&
        is_significantly_abnormal v nmin nmax

/-- The abnormal_data dict built for one included row (demo.py lines
485-495). -/
def abnData (norms : Norms) (row : Row) : AbnEntry :=
  let v := row.value.getD 0
  let ni := get_norm_info row.test_code row.test_name norms
  let nmin := ni.bind (fun nd => nd.min)
  let nmax := ni.bind (fun nd => nd.max)
  { test_code := row.test_code
    name := match ni with | some nd => nd.name | none => row.test_name
    value := v
    unit := match ni with | some nd => nd.unit | none => row.unit
    status := if statusFromRow row = "HIGH" ∨ statusFromRow row = "LOW"
      then statusFromRow row else check_value_against_norm v nmin nmax
    norm_min := nmin
    norm_max := nmax
    date := row.date }

/-- One row of the get_abnormal_tests fold over abnormal_by_code
(demo.py lines 497-503): keep the existing entry unless the new row has a
strictly later date string. -/
def abnStep (norms : Norms) (m : List (String × AbnEntry)) (row : Row) :
    List (String × AbnEntry) :=
  if rowIncluded norms row then
    match m.lookup row.test_code with
    | some ex =>
      if sLt ex.date row.date then
        m.map (fun p => if p.1 = row.test_code then (row.test_code, abnData norms row) else p)
      else m
    | none => m ++ [(row.test_code, abnData norms row)]
  else m

/-- get_abnormal_tests from demo.py: fold the rows through abnormal_by_code
and return its values. -/
def get_abnormal_tests (data : List Row) (norms : Norms) : List AbnEntry :=
  (data.foldl (abnStep norms) []).map (fun p => p.2)

theorem abnKeys_upd (m : List (String × AbnEntry)) (k : String) (e : AbnEntry) :
    ((m.map (fun p => if p.1 = k then (k, e) else p)).map (fun p => p.1)) =
      m.map (fun p => p.1) := by
  rw [List.map_map]
  refine List.map_congr_left ?_
  intro p _
  by_cases h : p.1 = k
  · simp [Function.comp, h]
  · simp [Function.comp, h]

theorem abnStep_inv (norms : Norms) (m : List (String × AbnEntry)) (r : Row)
    (rs : List Row)
    (k1 : ∀ p ∈ m, p.1 = p.2.test_code)
    (k2 : (m.map (fun p => p.1)).Nodup)
    (k3 : ∀ p ∈ m, ∃ row ∈ rs, rowIncluded norms row = true ∧ p.2 = abnData norms row)
    (k4 : ∀ row ∈ rs, rowIncluded norms row = true →
      ∃ p ∈ m, p.1 = row.test_code ∧ sLt p.2.date row.date = false) :
    (∀ p ∈ abnStep norms m r, p.1 = p.2.test_code) ∧
    ((abnStep norms m r).map (fun p => p.1)).Nodup ∧
    (∀ p ∈ abnStep norms m r, ∃ row ∈ rs ++ [r], rowIncluded norms row = true ∧
      p.2 = abnData norms row) ∧
    (∀ row ∈ rs ++ [r], rowIncluded norms row = true →
      ∃ p ∈ abnStep norms m r, p.1 = row.test_code ∧ sLt p.2.date row.date = false) := by
  by_cases hinc : rowIncluded norms r = true
  · simp only [abnStep, hinc, if_true]
    rcases hl : m.lookup r.test_code with _ | ex
    · simp only [hl]
      have hfresh : ∀ p ∈ m, p.1 ≠ r.test_code := lookup_none_not_mem m r.test_code hl
      refine ⟨?_, ?_, ?_, ?_⟩
      · intro p hp
        rcases List.mem_append.mp hp with hpo | hpn
        · exact k1 p hpo
        · simp only [List.mem_singleton] at hpn
          rw [hpn]
          rfl
      · rw [List.map_append, List.nodup_append]
        refine ⟨k2, by simp, ?_⟩
        intro a ha hb
        simp only [List.map_cons, List.map_nil, List.mem_singleton] at hb
        obtain ⟨p, hp, hpa⟩ := List.mem_map.mp ha
        exact hfresh p hp (by rw [hpa, hb])
      · intro p hp
        rcases List.mem_append.mp hp with hpo | hpn
        · obtain ⟨row, hrow, hi, he⟩ := k3 p hpo
          exact ⟨row, List.mem_append.mpr (Or.inl hrow), hi, he⟩
        · simp only [List.mem_singleton] at hpn
          exact ⟨r, List.mem_append.mpr (Or.inr (by simp)), hinc, by rw [hpn]⟩
      · intro row hrow hrowinc
        rcases List.mem_append.mp hrow with hro | hrn
        · obtain ⟨p, hp, hpk, hpd⟩ := k4 row hro hrowinc
          exact ⟨p, List.mem_append.mpr (Or.inl hp), hpk, hpd⟩
        · simp only [List.mem_singleton] at hrn
          subst hrn
          refine ⟨(row.test_code, abnData norms row),
            List.mem_append.mpr (Or.inr (by simp)), rfl, ?_⟩
          show sLt row.date row.date = false
          exact sLt_irrefl row.date
    · simp only [hl]
      by_cases hlt : sLt ex.date r.date = true
      · simp only [hlt, if_true]
        have hexm : (r.test_code, ex) ∈ m := lookup_mem m r.test_code ex hl
        refine ⟨?_, ?_, ?_, ?_⟩
        · intro p hp
          obtain ⟨q, hq, hpq⟩ := List.mem_map.mp hp
          by_cases hqk : q.1 = r.test_code
          · rw [if_pos hqk] at hpq
            rw [← hpq]
            rfl
          · rw [if_neg hqk] at hpq
            rw [← hpq]
            exact k1 q hq
        · rw [abnKeys_upd]
          exact k2
        · intro p hp
          obtain ⟨q, hq, hpq⟩ := List.mem_map.mp hp
          by_cases hqk : q.1 = r.test_code
          · rw [if_pos hqk] at hpq
            exact ⟨r, List.mem_append.mpr (Or.inr (by simp)), hinc, by rw [← hpq]⟩
          · rw [if_neg hqk] at hpq
            obtain ⟨row, hrow, hi, he⟩ := k3 q hq
            exact ⟨row, List.mem_append.mpr (Or.inl hrow), hi, by rw [← hpq]; exact he⟩
        · intro row hrow hrowinc
          rcases List.mem_append.mp hrow with hro | hrn
          · obtain ⟨p, hp, hpk, hpd⟩ := k4 row hro hrowinc
            by_cases hpkr : p.1 = r.test_code
            · have hpeq : p = (r.test_code, ex) :=
                nodup_key_unique m k2 p hp (r.test_code, ex) hexm (by rw [hpkr])
              refine ⟨(r.test_code, abnData norms r), ?_, ?_, ?_⟩
              · refine List.mem_map.mpr ⟨(r.test_code, ex), hexm, ?_⟩
                rw [if_pos rfl]
              · rw [← hpkr, hpk]
              · show sLt r.date row.date = false
                have hxd : sLt ex.date row.date = false := by
                  have : p.2 = ex := by rw [hpeq]
                  rwa [this] at hpd
                exact sLt_le_trans hxd (sLt_asymm hlt)
            · refine ⟨p, ?_, hpk, hpd⟩
              refine List.mem_map.mpr ⟨p, hp, ?_⟩
              rw [if_neg hpkr]
          · simp only [List.mem_singleton] at hrn
            subst hrn
            refine ⟨(row.test_code, abnData norms row), ?_, rfl, ?_⟩
            · refine List.mem_map.mpr ⟨(row.test_code, ex), hexm, ?_⟩
              rw [if_pos rfl]
            · show sLt row.date row.date = false
              exact sLt_irrefl row.date
      · have hltf : sLt ex.date r.date = false := by
          revert hlt; cases sLt ex.date r.date <;> simp
        simp only [hltf, Bool.false_eq_true, if_false]
        refine ⟨k1, k2, ?_, ?_⟩
        · intro p hp
          obtain ⟨row, hrow, hi, he⟩ := k3 p hp
          exact ⟨row, List.mem_append.mpr (Or.inl hrow), hi, he⟩
        · intro row hrow hrowinc
          rcases List.mem_append.mp hrow with hro | hrn
          · obtain ⟨p, hp, hpk, hpd⟩ := k4 row hro hrowinc
            exact ⟨p, hp, hpk, hpd⟩
          · simp only [List.mem_singleton] at hrn
            subst hrn
            exact ⟨(row.test_code, ex), lookup_mem m row.test_code ex hl, rfl, hltf⟩
  · have hincf : rowIncluded norms r = false := by
      revert hinc; cases rowIncluded norms r <;> simp
    simp only [abnStep, hincf, Bool.false_eq_true, if_false]
    refine ⟨k1, k2, ?_, ?_⟩
    · intro p hp
      obtain ⟨row, hrow, hi, he⟩ := k3 p hp
      exact ⟨row, List.mem_append.mpr (Or.inl hrow), hi, he⟩
    · intro row hrow hrowinc
      rcases List.mem_append.mp hrow with hro | hrn
      · obtain ⟨p, hp, hpk, hpd⟩ := k4 row hro hrowinc
        exact ⟨p, hp, hpk, hpd⟩
      · simp only [List.mem_singleton] at hrn
        subst hrn
        rw [hincf] at hrowinc
        simp at hrowinc

theorem abnFold_inv (norms : Norms) :
    ∀ (rows : List Row) (m : List (String × AbnEntry)) (rs : List Row),
      (∀ p ∈ m, p.1 = p.2.test_code) →
      ((m.map (fun p => p.1)).Nodup) →
      (∀ p ∈ m, ∃ row ∈ rs, rowIncluded norms row = true ∧ p.2 = abnData norms row) →
      (∀ row ∈ rs, rowIncluded norms row = true →
        ∃ p ∈ m, p.1 = row.test_code ∧ sLt p.2.date row.date = false) →
      (∀ p ∈ rows.foldl (abnStep norms) m, p.1 = p.2.test_code) ∧
      (((rows.foldl (abnStep norms) m).map (fun p => p.1)).Nodup) ∧
      (∀ p ∈ rows.foldl (abnStep norms) m, ∃ row ∈ rs ++ rows,
        rowIncluded norms row = true ∧ p.2 = abnData norms row) ∧
      (∀ row ∈ rs ++ rows, rowIncluded norms row = true →
        ∃ p ∈ rows.foldl (abnStep norms) m,
          p.1 = row.test_code ∧ sLt p.2.date row.date = false) := by
  intro rows
  induction rows with
  | nil =>
    intro m rs k1 k2 k3 k4
    simp only [List.foldl_nil, List.append_nil]
    exact ⟨k1, k2, k3, k4⟩
  | cons r rest ih =>
    intro m rs k1 k2 k3 k4
    obtain ⟨j1, j2, j3, j4⟩ := abnStep_inv norms m r rs k1 k2 k3 k4
    have hres := ih (abnStep norms m r) (rs ++ [r]) j1 j2 j3 j4
    simp only [List.foldl_cons]
    have harr : (rs ++ [r]) ++ rest = rs ++ (r :: rest) := by simp
    rw [harr] at hres
    exact hres

/-- C8 amended: every entry surfaced by get_abnormal_tests comes from an
included row — one whose value parses and that either carries an explicit
HIGH/LOW status from the upload, or whose value lies outside known bounds
with a relative deviation beyond the nearer bound exceeding 10 percent —
and per test code exactly one entry is kept, carrying the
lexicographically latest date string among that code's included rows. -/
theorem c8_abnormal_latest_significant (data : List Row) (norms : Norms) :
    ((get_abnormal_tests data norms).map (fun e => e.test_code)).Nodup ∧
    ∀ e ∈ get_abnormal_tests data norms,
      (∃ row ∈ data, rowIncluded norms row = true ∧ e = abnData norms row) ∧
      (∀ row ∈ data, rowIncluded norms row = true → row.test_code = e.test_code →
        sLt e.date row.date = false) := by
  have h := abnFold_inv norms data [] [] (by simp) (by simp) (by simp) (by simp)
  simp only [List.nil_append] at h
  obtain ⟨k1, k2, k3, k4⟩ := h
  constructor
  · unfold get_abnormal_tests
    rw [List.map_map]
    have hmap : ((data.foldl (abnStep norms) []).map
        ((fun e => e.test_code) ∘ (fun p => p.2))) =
        (data.foldl (abnStep norms) []).map (fun p => p.1) :=
      List.map_congr_left (fun p hp => (k1 p hp).symm)
    rw [hmap]
    exact k2
  · intro e he
    obtain ⟨q, hq, hqe⟩ := List.mem_map.mp he
    constructor
    · obtain ⟨row, hrow, hi, heq⟩ := k3 q hq
      exact ⟨row, hrow, hi, by rw [← hqe, heq]⟩
    · intro row hrow hinc hcode
      obtain ⟨p, hp, hpk, hpd⟩ := k4 row hrow hinc
      have hpq : p = q := by
        refine nodup_key_unique _ k2 p hp q hq ?_
        rw [hpk, hcode, ← hqe, ← k1 q hq]
      rw [← hqe, ← hpq]
      exact hpd

/-- The row with an upload-provided HIGH status of the C8 counterexample. -/
def c8row : Row := ⟨"t", "x", some 5, "2024-01-01", "", "HIGH"⟩

/-- C8 counterexample: a row whose CSV status column says HIGH is surfaced
by get_abnormal_tests even though no min/max bound is known for its code
(norm_min = norm_max = none) and the 10 percent significant-deviation test
is false — the CSV-status branch bypasses the bounds-and-deviation rule
the claim states. -/
theorem c8_counterexample_csv_status :
    get_abnormal_tests [c8row] ⟨[], []⟩ =
      [⟨"t", "x", 5, "", "HIGH", none, none, "2024-01-01"⟩] ∧
    is_significantly_abnormal 5 none none = false := by
  constructor
  · decide
  · decide

/-- Witness for c8_abnormal_latest_significant at the counterexample
data. -/
theorem c8_abnormal_latest_significant_witness :
    (⟨"t", "x", 5, "", "HIGH", none, none, "2024-01-01"⟩ : AbnEntry) ∈
      get_abnormal_tests [c8row] ⟨[], []⟩ ∧
    (∃ row ∈ [c8row], rowIncluded ⟨[], []⟩ row = true ∧
      (⟨"t", "x", 5, "", "HIGH", none, none, "2024-01-01"⟩ : AbnEntry) =
        abnData ⟨[], []⟩ row) :=
  ⟨by decide, ((c8_abnormal_latest_significant [c8row] ⟨[], []⟩).2
    ⟨"t", "x", 5, "", "HIGH", none, none, "2024-01-01"⟩ (by decide)).1⟩

/- ---------------------------------------------------------------------
   process_json column-resolution cascade (name_of_analysis.py 379-449).
   --------------------------------------------------------------------- -/

/-- Python truthiness of found_excel_id: None and the empty string are
falsy, any other string is truthy. -/
def truthyS : Option String → Bool
  | none => false
  | some s => s ≠ ""

/-- One cascade step: the previous value survives when it is truthy;
otherwise a stage hit (some v) overwrites it and a stage miss keeps the
stale value, exactly as found_excel_id is reassigned only inside the
stage's own guards. -/
def stageUpd (prev next : Option String) : Option String :=
  if truthyS prev then prev
  else match next with
    | some v => some v
    | none => prev

/-- The five-stage resolution of one column name in process_json
(name_of_analysis.py lines 379-449), parameterized over the four
rapidfuzz metrics (already divided by 100). Stage 1: case-insensitive
name lookup; stage 2: normalized-name lookup; stage 3: the fuzzy
test_mapping, accepted only when its target is non-empty and a metadata
key; stage 4: first substring containment hit over excel_name_to_id;
stage 5: best-scoring catalog name over four normalized metrics and
three raw lowercase metrics, accepted at or above the threshold and
only when truthy. -/
def find_excel_id (fr fp ft fts : String → String → ℚ)
    (excelNameToId testMapping : List (String × String))
    (metadataKeys : List String) (excelAllNames : List (String × String))
    (thr : ℚ) (tid : String) : Option String :=
  let f1 : Option String := excelNameToId.lookup (lowerStr tid)
  let f2 := stageUpd f1 (excelNameToId.lookup (normalize_column_name tid))
  let f3 := stageUpd f2 (match testMapping.lookup tid with
    | some e => if e ≠ "" && metadataKeys.contains e then some e else none
    | none => none)
  let tl := lowerStr tid
  let f4 := stageUpd f3 (excelNameToId.findSome? (fun p =>
    if strContains p.1 tl || strContains tl p.1 then some p.2 else none))
  let tn := normalize_column_name tid
  let best := (excelAllNames.foldl (fun acc p =>
    let en := normalize_column_name p.1
    let el := lowerStr p.1
    let score := max (max (fr tn en) (fp tn en)) (max (ft tn en) (fts tn en))
    let score2 := max (max (fr tl el) (fp tl el)) (ft tl el)
    let finalScore := max score score2
    if acc.1 < finalScore && thr ≤ finalScore then (finalScore, some p.2)
    else acc) ((0 : ℚ), (none : Option String))).2
  stageUpd f4 (if truthyS best then best else none)

/-- The enriched value for one key: the resolved code when truthy,
otherwise the key itself (the else branch writing
enriched_test_names[test_id] = test_id). -/
def resolveKey (f : Option String) (tid : String) : String :=
  match f with
  | some v => if v ≠ "" then v else tid
  | none => tid

/-- The column_name_to_test_code dict built by process_json: one entry
per test_names key, mapping it to its resolution. -/
def column_name_to_test_code (fr fp ft fts : String → String → ℚ)
    (excelNameToId testMapping : List (String × String))
    (metadataKeys : List String) (excelAllNames : List (String × String))
    (thr : ℚ) (keys : List String) : List (String × String) :=
  keys.map (fun tid => (tid, resolveKey
    (find_excel_id fr fp ft fts excelNameToId testMapping metadataKeys
      excelAllNames thr tid) tid))

theorem resolveKey_of_falsy {f : Option String} (tid : String)
    (h : truthyS f = false) : resolveKey f tid = tid := by
  cases f with
  | none => rfl
  | some v =>
    have hv : v = "" := by simpa [truthyS] using h
    subst hv
    simp [resolveKey]

/-- C6: a raw identifier on which every cascade stage fails (the
resolved value is falsy: None or empty) still appears in
column_name_to_test_code, mapped to itself — resolution degrades
gracefully instead of erroring. -/
theorem c6_unmatched_maps_to_itself (fr fp ft fts : String → String → ℚ)
    (excelNameToId testMapping : List (String × String))
    (metadataKeys : List String) (excelAllNames : List (String × String))
    (thr : ℚ) (keys : List String) (tid : String)
    (hmem : tid ∈ keys)
    (hfail : truthyS (find_excel_id fr fp ft fts excelNameToId testMapping
      metadataKeys excelAllNames thr tid) = false) :
    (column_name_to_test_code fr fp ft fts excelNameToId testMapping
      metadataKeys excelAllNames thr keys).lookup tid = some tid := by
  unfold column_name_to_test_code
  rw [lookup_map_pair _ keys tid hmem, resolveKey_of_falsy tid hfail]

/-- Witness for c6_unmatched_maps_to_itself: the key x with an empty
catalog resolves to itself. -/
theorem c6_unmatched_maps_to_itself_witness :
    (column_name_to_test_code fuzzRatio fuzzSubstr fuzzTokenSort fuzzTokenSet
      [] [] [] [] 0 ["x"]).lookup "x" = some "x" :=
  c6_unmatched_maps_to_itself fuzzRatio fuzzSubstr fuzzTokenSort fuzzTokenSet
    [] [] [] [] 0 ["x"] "x" (by decide) (by decide)
